import Mathlib

/-!
# SM2 P-256 field representation

A shallow embedding of `src/lib/math/pcurves/pcurves_sm2p256v1/pcurves_sm2p256v1.cpp`:
the Solinas reduction `Sm2p256v1Rep::redc`, its helper `sm2_mul_mod_256`, the trivial
representation maps, the curve constants of `Params` and the addition chain
`Curve::fe_invert2`.

A `std::array<W, N>` is a `List Nat` of little-endian words; the word width `W` of the
template is the parameter `w` (32 or 64) and every `if constexpr` on it is an `if` on `w`.
`int64_t` arithmetic is integer arithmetic followed by a two's complement wrap, once per
statement (which equals a wrap after every operation). The headers the file includes
(`pcurves_solinas.h`, the word-level `bigint_*` primitives, the generic `FieldElement`) are
not part of the sources; their operations are modelled from the specification and marked.
-/

namespace Botan.PCurve.sm2p256v1

/-! ## Word arrays -/

/-- The integer denoted by a little-endian array of `w`-bit words. -/
def limbsVal (w : Nat) : List Nat → Nat
  | [] => 0
  | x :: xs => x + 2 ^ w * limbsVal w xs

/-- The `n` little-endian `w`-bit words of `v`. -/
def toLimbs (w : Nat) : Nat → Nat → List Nat
  | 0, _ => []
  | n + 1, v => v % 2 ^ w :: toLimbs w n (v / 2 ^ w)

/-- A well-formed `std::array<W, n>`: `n` words, each below `2 ^ w`. -/
def WordArray (w n : Nat) (xs : List Nat) : Prop :=
  xs.length = n ∧ ∀ x ∈ xs, x < 2 ^ w

instance (w n : Nat) (xs : List Nat) : Decidable (WordArray w n xs) := by
  unfold WordArray; infer_instance

/-- Two's complement wrap of an integer into the `int64_t` range. -/
def wrapInt64 (v : Int) : Int := (v + 2 ^ 63) % 2 ^ 64 - 2 ^ 63

/-- Unsigned `w`-bit subtraction `a - b`, wrapping. -/
def wsub (w a b : Nat) : Nat := (a + 2 ^ w - b % 2 ^ w) % 2 ^ w

/-- Unsigned `w`-bit addition `a + b`, wrapping. -/
def wadd (w a b : Nat) : Nat := (a + b) % 2 ^ w

/-! ## Curve parameters (`class Params`) -/

namespace Params

/-- First numeral of `Params`: the field prime. -/
def P : Nat := 0xFFFFFFFEFFFFFFFFFFFFFFFFFFFFFFFFFFFFFFFF00000000FFFFFFFFFFFFFFFF

/-- Second numeral of `Params`: the curve coefficient `A`. -/
def A : Nat := 0xFFFFFFFEFFFFFFFFFFFFFFFFFFFFFFFFFFFFFFFF00000000FFFFFFFFFFFFFFFC

/-- Third numeral of `Params`: the curve coefficient `B`. -/
def B : Nat := 0x28E9FA9E9D9F5E344D5A9E4BCF6509A7F39789F515AB8F92DDBCBD414D940E93

/-- Fourth numeral of `Params`: the group order. -/
def order : Nat := 0xFFFFFFFEFFFFFFFFFFFFFFFFFFFFFFFF7203DF6B21C6052B53BBF40939D54123

/-- Fifth numeral of `Params`: the base point's x coordinate. -/
def Gx : Nat := 0x32C4AE2C1F1981195F9904466A39C9948FE30BBFF2660BE1715A4589334C74C7

/-- Sixth numeral of `Params`: the base point's y coordinate. -/
def Gy : Nat := 0xBC3736A2F4F6779C59BDCEE36B692153D0A9877CC62A474002DF32E52139F0A0

end Params

/-! ## Word-level helpers used by `redc` -/

/-- Modelled from the spec: `get_uint32` of `pcurves_solinas.h` (header not among the
sources), the `i`-th 32-bit limb of a word array. -/
def get_uint32 (w : Nat) (xw : List Nat) (i : Nat) : Nat :=
  if w = 32 then xw.getD i 0 % 2 ^ 32
  else (xw.getD (i / 2) 0 >>> ((i % 2) * 32)) % 2 ^ 32

/-- Modelled from the spec: `SolinasAccum` of `pcurves_solinas.h` (header not among the
sources), the carry-propagating accumulator: the result words, the running signed sum and
the index of the next 32-bit limb. -/
structure SolinasAccum where
  /-- The result array being filled. -/
  m_r : List Nat
  /-- The running signed sum (an `int64_t`). -/
  m_S : Int
  /-- The next 32-bit limb to write. -/
  m_idx : Nat
deriving DecidableEq, Repr

namespace SolinasAccum

/-- Modelled from the spec: the constructor `SolinasAccum(r)`: sum and index start at 0. -/
def init (r : List Nat) : SolinasAccum := { m_r := r, m_S := 0, m_idx := 0 }

/-- Modelled from the spec: `SolinasAccum::accum(v)`: add `v` to the running sum, store its
low 32 bits as the next limb and keep the (signed, arithmetically shifted) rest as carry. -/
def accum (w : Nat) (s : SolinasAccum) (v : Int) : SolinasAccum :=
  let m_S := wrapInt64 (s.m_S + v)
  let r : Nat := (m_S % 2 ^ 32).toNat
  let m_S := m_S / 2 ^ 32
  let m_r :=
    if w = 32 then s.m_r.set s.m_idx r
    else s.m_r.set (s.m_idx / 2)
      (s.m_r.getD (s.m_idx / 2) 0 ||| ((r <<< (32 * (s.m_idx % 2))) % 2 ^ 64))
  { m_r := m_r, m_S := m_S, m_idx := s.m_idx + 1 }

/-- Modelled from the spec: `SolinasAccum::final_carry(C)`: the final signed carry plus `C`,
cast to a word. Returns the accumulator (whose `m_S` is the signed carry) and the word. -/
def final_carry (w : Nat) (s : SolinasAccum) (C : Int) : SolinasAccum × Nat :=
  let m_S := wrapInt64 (s.m_S + C)
  ({ s with m_S := m_S }, (m_S % 2 ^ w).toNat)

end SolinasAccum

/-- Modelled from the spec: `word_sub` (word-level primitive not among the sources):
`x - y - carry` on `w`-bit words, with the outgoing borrow. -/
def word_sub (w x y carry : Nat) : Nat × Nat :=
  let d : Int := (x : Int) - (y : Int) - (carry : Int)
  ((d % 2 ^ w).toNat, if d < 0 then 1 else 0)

/-- Modelled from the spec: `word_add` (word-level primitive not among the sources):
`x + y + carry` on `w`-bit words, with the outgoing carry. -/
def word_add (w x y carry : Nat) : Nat × Nat :=
  ((x + y + carry) % 2 ^ w, (x + y + carry) / 2 ^ w)

/-- Modelled from the spec: the loop of `bigint_sub2` (word-level primitive not among the
sources): subtract `y` from `x` word by word, threading the borrow. -/
def bigint_sub2_loop (w : Nat) : List Nat → List Nat → Nat → List Nat × Nat
  | [], _, borrow => ([], borrow)
  | x :: xs, [], borrow =>
    let zc := word_sub w x 0 borrow
    let rest := bigint_sub2_loop w xs [] zc.2
    (zc.1 :: rest.1, rest.2)
  | x :: xs, y :: ys, borrow =>
    let zc := word_sub w x y borrow
    let rest := bigint_sub2_loop w xs ys zc.2
    (zc.1 :: rest.1, rest.2)

/-- Modelled from the spec: `bigint_sub2(x, x_size, y, y_size)`: `x -= y`; returns the new
`x` and the final borrow. -/
def bigint_sub2 (w : Nat) (x y : List Nat) : List Nat × Nat :=
  bigint_sub2_loop w x y 0

/-- Modelled from the spec: the loop of `bigint_cnd_add`: add the masked words of `y` to
`x`, threading the carry. -/
def bigint_cnd_add_loop (w mask : Nat) : List Nat → List Nat → Nat → List Nat × Nat
  | [], _, carry => ([], carry)
  | x :: xs, [], carry =>
    let zc := word_add w x 0 carry
    let rest := bigint_cnd_add_loop w mask xs [] zc.2
    (zc.1 :: rest.1, rest.2)
  | x :: xs, y :: ys, carry =>
    let zc := word_add w x (y &&& mask) carry
    let rest := bigint_cnd_add_loop w mask xs ys zc.2
    (zc.1 :: rest.1, rest.2)

/-- Modelled from the spec: `bigint_cnd_add(cnd, x, x_size, y, y_size)`, the constant-time
conditional add: `x += y` when `cnd` is set, through an all-ones or all-zeros mask and no
branch; returns the new `x` and the masked carry. -/
def bigint_cnd_add (w cnd : Nat) (x y : List Nat) : List Nat × Nat :=
  let mask := if cnd = 0 then 0 else 2 ^ w - 1
  let res := bigint_cnd_add_loop w mask x y 0
  (res.1, res.2 &&& mask)

/-! ## `class Sm2p256v1Rep` -/

namespace Sm2p256v1Rep

/-- Word count `N = Params::N` of a field element: 8 words of 32 bits or 4 of 64. -/
def N (w : Nat) : Nat := 256 / w

/-- The prime `P = Params::P` as a word array. -/
def P (w : Nat) : List Nat := toLimbs w (N w) Params.P

/-- `Sm2p256v1Rep::sm2_mul_mod_256(i)`. -/
def sm2_mul_mod_256 (w : Nat) (i : Nat) : List Nat :=
  let r := P w
  if w = 32 then
    let r := r.set 7 (wsub w (r.getD 7 0) i)
    let r := r.set 3 (wsub w (r.getD 3 0) i)
    let r := r.set 2 (wadd w (r.getD 2 0) i)
    let r := r.set 0 (wsub w (r.getD 0 0) i)
    r
  else
    let i32 := (i <<< 32) % 2 ^ 64
    let r := r.set 3 (wsub w (r.getD 3 0) i32)
    let r := r.set 1 (wsub w (r.getD 1 0) i32)
    let r := r.set 1 (wadd w (r.getD 1 0) i)
    let r := r.set 0 (wsub w (r.getD 0 0) i)
    r

/-- `Sm2p256v1Rep::redc(z)`. -/
def redc (w : Nat) (z : List Nat) : List Nat :=
  let X00 : Int := get_uint32 w z 0
  let X01 : Int := get_uint32 w z 1
  let X02 : Int := get_uint32 w z 2
  let X03 : Int := get_uint32 w z 3
  let X04 : Int := get_uint32 w z 4
  let X05 : Int := get_uint32 w z 5
  let X06 : Int := get_uint32 w z 6
  let X07 : Int := get_uint32 w z 7
  let X08 : Int := get_uint32 w z 8
  let X09 : Int := get_uint32 w z 9
  let X10 : Int := get_uint32 w z 10
  let X11 : Int := get_uint32 w z 11
  let X12 : Int := get_uint32 w z 12
  let X13 : Int := get_uint32 w z 13
  let X14 : Int := get_uint32 w z 14
  let X15 : Int := get_uint32 w z 15
  let S0 := wrapInt64 (X00 + X08 + X09 + X10 + X11 + X12 + 2 * (X13 + X14 + X15))
  let S1 := wrapInt64 (X01 + X09 + X10 + X11 + X12 + X13 + 2 * (X14 + X15))
  let S2 := wrapInt64 (X02 - (X08 + X09 + X13 + X14))
  let S3 := wrapInt64 (X03 + X08 + X11 + X12 + 2 * X13 + X14 + X15)
  let S4 := wrapInt64 (X04 + X09 + X12 + X13 + 2 * X14 + X15)
  let S5 := wrapInt64 (X05 + X10 + X13 + X14 + 2 * X15)
  let S6 := wrapInt64 (X06 + X11 + X14 + X15)
  let S7 := wrapInt64 (X07 + X08 + X09 + X10 + X11 + 2 * (X12 + X13 + X14 + X15) + X15)
  let r := List.replicate (N w) 0
  let sum := SolinasAccum.init r
  let sum := sum.accum w S0
  let sum := sum.accum w S1
  let sum := sum.accum w S2
  let sum := sum.accum w S3
  let sum := sum.accum w S4
  let sum := sum.accum w S5
  let sum := sum.accum w S6
  let sum := sum.accum w S7
  let S := (sum.final_carry w 0).2
  let r := sum.m_r
  let correction := sm2_mul_mod_256 w S
  let sub := bigint_sub2 w r correction
  let r := sub.1
  let borrow := sub.2
  let r := (bigint_cnd_add w borrow r (P w)).1
  r

/-- Lines 26-50 of `redc`: the sixteen 32-bit limbs `X00..X15` of `z` and the eight signed
partial sums `S0..S7` formed from them. -/
def redc_sums (w : Nat) (z : List Nat) : List Int :=
  let X00 : Int := get_uint32 w z 0
  let X01 : Int := get_uint32 w z 1
  let X02 : Int := get_uint32 w z 2
  let X03 : Int := get_uint32 w z 3
  let X04 : Int := get_uint32 w z 4
  let X05 : Int := get_uint32 w z 5
  let X06 : Int := get_uint32 w z 6
  let X07 : Int := get_uint32 w z 7
  let X08 : Int := get_uint32 w z 8
  let X09 : Int := get_uint32 w z 9
  let X10 : Int := get_uint32 w z 10
  let X11 : Int := get_uint32 w z 11
  let X12 : Int := get_uint32 w z 12
  let X13 : Int := get_uint32 w z 13
  let X14 : Int := get_uint32 w z 14
  let X15 : Int := get_uint32 w z 15
  let S0 := wrapInt64 (X00 + X08 + X09 + X10 + X11 + X12 + 2 * (X13 + X14 + X15))
  let S1 := wrapInt64 (X01 + X09 + X10 + X11 + X12 + X13 + 2 * (X14 + X15))
  let S2 := wrapInt64 (X02 - (X08 + X09 + X13 + X14))
  let S3 := wrapInt64 (X03 + X08 + X11 + X12 + 2 * X13 + X14 + X15)
  let S4 := wrapInt64 (X04 + X09 + X12 + X13 + 2 * X14 + X15)
  let S5 := wrapInt64 (X05 + X10 + X13 + X14 + 2 * X15)
  let S6 := wrapInt64 (X06 + X11 + X14 + X15)
  let S7 := wrapInt64 (X07 + X08 + X09 + X10 + X11 + 2 * (X12 + X13 + X14 + X15) + X15)
  [S0, S1, S2, S3, S4, S5, S6, S7]

/-- Lines 52-63 of `redc`: the accumulator after `accum` has been called on each partial
sum in turn, starting from the zeroed result array. -/
def redc_accum (w : Nat) (sums : List Int) : SolinasAccum :=
  sums.foldl (SolinasAccum.accum w) (SolinasAccum.init (List.replicate (N w) 0))

/-- Lines 66-71 of `redc`: subtract the correction term for the final carry `S` from the
accumulated `r` and add `P` back when the subtraction borrowed. -/
def redc_finish (w : Nat) (r : List Nat) (S : Nat) : List Nat :=
  (bigint_cnd_add w (bigint_sub2 w r (sm2_mul_mod_256 w S)).2
    (bigint_sub2 w r (sm2_mul_mod_256 w S)).1 (P w)).1

/-- The integer `S0 + S1 * 2^32 + S2 * 2^64 + ...` that a list of partial sums stands for. -/
def sumsVal : List Int → Int
  | [] => 0
  | s :: ss => s + 2 ^ 32 * sumsVal ss

/-- `Sm2p256v1Rep::one()`: the array `{1}`, that is 1 followed by zero words. -/
def one (w : Nat) : List Nat := 1 :: List.replicate (N w - 1) 0

/-- `Sm2p256v1Rep::to_rep(x)`. -/
def to_rep (x : List Nat) : List Nat := x

/-- `Sm2p256v1Rep::wide_to_rep(x)`. -/
def wide_to_rep (w : Nat) (x : List Nat) : List Nat := redc w x

/-- `Sm2p256v1Rep::from_rep(z)`. -/
def from_rep (z : List Nat) : List Nat := z

end Sm2p256v1Rep

/-! ## `FieldElement` and `class Curve` -/

namespace FieldElement

/-- Modelled from the spec: `FieldElement` multiplication (the generic field layer is not
among the sources): the double-width product of the two operands, then `redc`. -/
def mul (w : Nat) (a b : List Nat) : List Nat :=
  Sm2p256v1Rep.redc w (toLimbs w (2 * Sm2p256v1Rep.N w) (limbsVal w a * limbsVal w b))

/-- Modelled from the spec: `FieldElement::square`, which satisfies
`square(a) == mul(a, a)`. -/
def square (w : Nat) (a : List Nat) : List Nat := mul w a a

/-- Modelled from the spec: `FieldElement::square_n(k)`: `square` applied `k` times. -/
def square_n (w : Nat) : List Nat → Nat → List Nat
  | a, 0 => a
  | a, k + 1 => square_n w (square w a) k

end FieldElement

namespace Curve

open FieldElement in
/-- `Curve::fe_invert2(x)`: the addition chain, statement by statement. -/
def fe_invert2 (w : Nat) (x : List Nat) : List Nat :=
  let z := square w x
  let t0 := mul w x z
  let z := square w t0
  let z := mul w z x
  let t1 := z
  let t1 := square_n w t1 3
  let t1 := mul w t1 z
  let t2 := square w t1
  let z := mul w t2 x
  let t2 := square_n w t2 5
  let t1 := mul w t1 t2
  let t2 := t1
  let t2 := square_n w t2 12
  let t1 := mul w t1 t2
  let t1 := square_n w t1 7
  let z := mul w z t1
  let t2 := z
  let t2 := square_n w t2 2
  let t1 := t2
  let t1 := square_n w t1 29
  let z := mul w z t1
  let t1 := square_n w t1 2
  let t2 := mul w t2 t1
  let t0 := mul w t0 t2
  let t1 := square_n w t1 32
  let t1 := mul w t1 t0
  let t1 := square_n w t1 64
  let t0 := mul w t0 t1
  let t0 := square_n w t0 94
  let z := mul w z t0
  let z := square_n w z 2
  z

end Curve

/-! ## Auxiliary definitions for the proofs -/

/-- State of the accumulator after `k` limbs, 32-bit words: the limbs written so far and
the signed carry add up to `T`, and the carry is small. -/
def AccumInv32 (s : SolinasAccum) (k : Nat) (T : Int) : Prop :=
  ∃ rs : List Nat, rs.length = k ∧ (∀ a ∈ rs, a < 2 ^ 32) ∧
    s.m_r = rs ++ List.replicate (8 - k) 0 ∧ s.m_idx = k ∧
    (limbsVal 32 rs : Int) + s.m_S * 2 ^ (32 * k) = T ∧
    -2 ^ 36 ≤ s.m_S ∧ s.m_S < 2 ^ 36

/-- Square-and-multiply loop: `acc * b ^ e mod m`, with `fuel` bounding the bit length of
`e`. -/
def powModAux (m : Nat) : Nat → Nat → Nat → Nat → Nat
  | 0, _, _, acc => acc % m
  | fuel + 1, b, e, acc =>
    if e = 0 then acc % m
    else powModAux m fuel (b * b % m) (e / 2) (if e % 2 = 1 then acc * b % m else acc)

/-- Modular exponentiation `b ^ e mod m` by square-and-multiply. -/
def powMod (b e m : Nat) : Nat := powModAux m e b e 1

/-- A field element `t` that is the `e`-th power of `x` modulo `P`, 32-bit words. -/
def IsPow32 (x : List Nat) (e : Nat) (t : List Nat) : Prop :=
  WordArray 32 8 t ∧ limbsVal 32 t = limbsVal 32 x ^ e % Params.P

open Sm2p256v1Rep

/-! ## Zero extension -/

/-- A single-width array zero-extended to double width: `N` zero words appended. -/
def zero_extend (w : Nat) (x : List Nat) : List Nat := x ++ List.replicate (N w) 0

/-! ## `redc` over the unbounded integers -/

/-- `SolinasAccum::accum(v)` with `int64_t` read as the unbounded integers: the body of
`accum` without the wrap. -/
def SolinasAccum.accum_exact (w : Nat) (s : SolinasAccum) (v : Int) : SolinasAccum :=
  let m_S := s.m_S + v
  let r : Nat := (m_S % 2 ^ 32).toNat
  let m_S := m_S / 2 ^ 32
  let m_r :=
    if w = 32 then s.m_r.set s.m_idx r
    else s.m_r.set (s.m_idx / 2)
      (s.m_r.getD (s.m_idx / 2) 0 ||| ((r <<< (32 * (s.m_idx % 2))) % 2 ^ 64))
  { m_r := m_r, m_S := m_S, m_idx := s.m_idx + 1 }

/-- `SolinasAccum::final_carry(C)` with `int64_t` read as the unbounded integers. -/
def SolinasAccum.final_carry_exact (w : Nat) (s : SolinasAccum) (C : Int) :
    SolinasAccum × Nat :=
  let m_S := s.m_S + C
  ({ s with m_S := m_S }, (m_S % 2 ^ w).toNat)

/-- Lines 26-50 of `redc` with `int64_t` read as the unbounded integers: the partial sums
`S0..S7` without the wrap. -/
def Sm2p256v1Rep.redc_sums_exact (w : Nat) (z : List Nat) : List Int :=
  let X00 : Int := get_uint32 w z 0
  let X01 : Int := get_uint32 w z 1
  let X02 : Int := get_uint32 w z 2
  let X03 : Int := get_uint32 w z 3
  let X04 : Int := get_uint32 w z 4
  let X05 : Int := get_uint32 w z 5
  let X06 : Int := get_uint32 w z 6
  let X07 : Int := get_uint32 w z 7
  let X08 : Int := get_uint32 w z 8
  let X09 : Int := get_uint32 w z 9
  let X10 : Int := get_uint32 w z 10
  let X11 : Int := get_uint32 w z 11
  let X12 : Int := get_uint32 w z 12
  let X13 : Int := get_uint32 w z 13
  let X14 : Int := get_uint32 w z 14
  let X15 : Int := get_uint32 w z 15
  let S0 := X00 + X08 + X09 + X10 + X11 + X12 + 2 * (X13 + X14 + X15)
  let S1 := X01 + X09 + X10 + X11 + X12 + X13 + 2 * (X14 + X15)
  let S2 := X02 - (X08 + X09 + X13 + X14)
  let S3 := X03 + X08 + X11 + X12 + 2 * X13 + X14 + X15
  let S4 := X04 + X09 + X12 + X13 + 2 * X14 + X15
  let S5 := X05 + X10 + X13 + X14 + 2 * X15
  let S6 := X06 + X11 + X14 + X15
  let S7 := X07 + X08 + X09 + X10 + X11 + 2 * (X12 + X13 + X14 + X15) + X15
  [S0, S1, S2, S3, S4, S5, S6, S7]

/-- Lines 52-63 of `redc` over the unbounded integers: `accum` without the wrap, called on
each partial sum in turn. -/
def Sm2p256v1Rep.redc_accum_exact (w : Nat) (sums : List Int) : SolinasAccum :=
  sums.foldl (SolinasAccum.accum_exact w) (SolinasAccum.init (List.replicate (N w) 0))

/-- The whole of `redc` with `int64_t` read as the unbounded integers. -/
def Sm2p256v1Rep.redc_exact (w : Nat) (z : List Nat) : List Nat :=
  let sum := redc_accum_exact w (redc_sums_exact w z)
  let S := (sum.final_carry_exact w 0).2
  let r := sum.m_r
  let correction := sm2_mul_mod_256 w S
  let sub := bigint_sub2 w r correction
  let r := sub.1
  let borrow := sub.2
  let r := (bigint_cnd_add w borrow r (P w)).1
  r

/-- The running accumulator values of `redc`: for each partial sum in turn, the previous
carry plus that sum, the value `m_S` holds right after `m_S += v`. -/
def running_values (w : Nat) : SolinasAccum → List Int → List Int
  | _, [] => []
  | s, v :: vs => (s.m_S + v) :: running_values w (s.accum_exact w v) vs

/-! ## `sm2_mul_mod_256` with checked arithmetic -/

/-- Unsigned subtraction `a - b` that fails when it would wrap around. -/
def wsub_checked (a b : Nat) : Option Nat := if b ≤ a then some (a - b) else none

/-- Unsigned `w`-bit addition `a + b` that fails when it would wrap around. -/
def wadd_checked (w a b : Nat) : Option Nat := if a + b < 2 ^ w then some (a + b) else none

/-- `Sm2p256v1Rep::sm2_mul_mod_256(i)` with every word update checked: `none` as soon as
one of them (or the shift `i << 32`) wraps around its word. -/
def Sm2p256v1Rep.sm2_mul_mod_256_checked (w : Nat) (i : Nat) : Option (List Nat) :=
  let r := P w
  if w = 32 then do
    let v ← wsub_checked (r.getD 7 0) i
    let r := r.set 7 v
    let v ← wsub_checked (r.getD 3 0) i
    let r := r.set 3 v
    let v ← wadd_checked w (r.getD 2 0) i
    let r := r.set 2 v
    let v ← wsub_checked (r.getD 0 0) i
    let r := r.set 0 v
    pure r
  else do
    let i32 ← if i <<< 32 < 2 ^ 64 then some (i <<< 32) else none
    let v ← wsub_checked (r.getD 3 0) i32
    let r := r.set 3 v
    let v ← wsub_checked (r.getD 1 0) i32
    let r := r.set 1 v
    let v ← wadd_checked w (r.getD 1 0) i
    let r := r.set 1 v
    let v ← wsub_checked (r.getD 0 0) i
    let r := r.set 0 v
    pure r

/-! ## Auxiliary definitions for the 64-bit instantiation -/

/-- The sixteen 32-bit limbs of a double-width input, as `get_uint32` reads them at word
width `w`. -/
def limbs32 (w : Nat) (z : List Nat) : List Nat := (List.range 16).map (get_uint32 w z)

/-- State of the accumulator after `2 * j` limbs, 64-bit words: the `j` words filled so far
and the signed carry add up to `T`, and the carry is small. -/
def AccumInv64 (s : SolinasAccum) (j : Nat) (T : Int) : Prop :=
  ∃ ws : List Nat, ws.length = j ∧ (∀ a ∈ ws, a < 2 ^ 64) ∧
    s.m_r = ws ++ List.replicate (4 - j) 0 ∧ s.m_idx = 2 * j ∧
    (limbsVal 64 ws : Int) + s.m_S * 2 ^ (64 * j) = T ∧
    -2 ^ 36 ≤ s.m_S ∧ s.m_S < 2 ^ 36

/-! ## Word arrays: basic facts -/

theorem limbsVal_lt (w : Nat) : ∀ (xs : List Nat), (∀ x ∈ xs, x < 2 ^ w) →
    limbsVal w xs < 2 ^ (w * xs.length)
  | [], _ => by simp [limbsVal]
  | x :: xs, h => by
    have hx : x < 2 ^ w := h x (List.mem_cons_self _ _)
    have ih := limbsVal_lt w xs (fun y hy => h y (List.mem_cons_of_mem _ hy))
    simp only [limbsVal, List.length_cons, Nat.mul_succ, pow_add]
    have : 2 ^ w * (limbsVal w xs + 1) ≤ 2 ^ w * 2 ^ (w * xs.length) :=
      Nat.mul_le_mul_left _ ih
    rw [Nat.mul_comm (2 ^ (w * xs.length))]
    nlinarith

theorem limbsVal_lt_of_le (w n m : Nat) (xs : List Nat) (h : WordArray w n xs)
    (hnm : n ≤ m) : limbsVal w xs < 2 ^ (w * m) := by
  have h1 := limbsVal_lt w xs h.2
  rw [h.1] at h1
  exact Nat.lt_of_lt_of_le h1
    (Nat.pow_le_pow_right (Nat.succ_pos 1) (Nat.mul_le_mul_left w hnm))

theorem limbsVal_inj (w : Nat) : ∀ (xs ys : List Nat), xs.length = ys.length →
    (∀ x ∈ xs, x < 2 ^ w) → (∀ y ∈ ys, y < 2 ^ w) → limbsVal w xs = limbsVal w ys → xs = ys
  | [], [], _, _, _, _ => rfl
  | [], _ :: _, h, _, _, _ => by simp at h
  | _ :: _, [], h, _, _, _ => by simp at h
  | x :: xs, y :: ys, hl, hx, hy, hv => by
    have hx0 : x < 2 ^ w := hx x (List.mem_cons_self _ _)
    have hy0 : y < 2 ^ w := hy y (List.mem_cons_self _ _)
    simp only [limbsVal] at hv
    have h1 : x = y := by
      have := congrArg (· % 2 ^ w) hv
      simpa [Nat.add_mul_mod_self_left, Nat.mod_eq_of_lt hx0, Nat.mod_eq_of_lt hy0] using this
    have h2 : limbsVal w xs = limbsVal w ys := by
      subst h1
      have hpos : 0 < 2 ^ w := Nat.pow_pos (by decide)
      exact Nat.eq_of_mul_eq_mul_left hpos (Nat.add_left_cancel hv)
    rw [h1, limbsVal_inj w xs ys (by simpa using hl)
      (fun a ha => hx a (List.mem_cons_of_mem _ ha))
      (fun a ha => hy a (List.mem_cons_of_mem _ ha)) h2]

theorem toLimbs_length (w : Nat) : ∀ (n v : Nat), (toLimbs w n v).length = n
  | 0, _ => rfl
  | n + 1, v => by simp [toLimbs, toLimbs_length w n]

theorem toLimbs_lt (w : Nat) : ∀ (n v : Nat), ∀ x ∈ toLimbs w n v, x < 2 ^ w
  | 0, _ => by simp [toLimbs]
  | n + 1, v => by
    intro x hx
    simp only [toLimbs, List.mem_cons] at hx
    rcases hx with rfl | hx
    · exact Nat.mod_lt _ (Nat.pow_pos (by decide))
    · exact toLimbs_lt w n _ x hx

theorem limbsVal_toLimbs (w : Nat) : ∀ (n v : Nat),
    limbsVal w (toLimbs w n v) = v % 2 ^ (w * n)
  | 0, v => by simp [toLimbs, limbsVal, Nat.mod_one]
  | n + 1, v => by
    simp only [toLimbs, limbsVal, limbsVal_toLimbs w n, Nat.mul_succ]
    rw [Nat.add_comm (w * n) w, pow_add, Nat.mod_mul, Nat.add_comm]
    
theorem toLimbs_wordArray (w n v : Nat) : WordArray w n (toLimbs w n v) :=
  ⟨toLimbs_length w n v, toLimbs_lt w n v⟩

/-! ## The borrow and carry chains -/

theorem word_sub_spec (w x y b : Nat) (hx : x < 2 ^ w) (hy : y < 2 ^ w) (hb : b ≤ 1) :
    (word_sub w x y b).1 < 2 ^ w ∧ (word_sub w x y b).2 ≤ 1 ∧
    ((word_sub w x y b).1 : Int) =
      (x : Int) - y - b + ((word_sub w x y b).2 : Int) * 2 ^ w := by
  have hM : (0 : Int) < 2 ^ w := by positivity
  have hx1 : (x : Int) < 2 ^ w := by exact_mod_cast hx
  have hy1 : (y : Int) < 2 ^ w := by exact_mod_cast hy
  have hb1 : (b : Int) ≤ 1 := by exact_mod_cast hb
  have hx0 : (0 : Int) ≤ x := Int.natCast_nonneg _
  have hy0 : (0 : Int) ≤ y := Int.natCast_nonneg _
  have hb0 : (0 : Int) ≤ b := Int.natCast_nonneg _
  have hnn : (0 : Int) ≤ ((x : Int) - y - b) % 2 ^ w := Int.emod_nonneg _ hM.ne.symm
  have hlt : ((x : Int) - y - b) % 2 ^ w < 2 ^ w := Int.emod_lt_of_pos _ hM
  refine ⟨?_, ?_, ?_⟩
  · simp only [word_sub]
    have : ((((x : Int) - y - b) % 2 ^ w).toNat : Int) < ((2 ^ w : Nat) : Int) := by
      rw [Int.toNat_of_nonneg hnn]; exact_mod_cast hlt
    exact_mod_cast this
  · simp only [word_sub]; split <;> simp
  · simp only [word_sub]
    rw [Int.toNat_of_nonneg hnn]
    by_cases hd : (x : Int) - y - b < 0
    · rw [if_pos hd]
      have h1 : ((x : Int) - y - b) % 2 ^ w = ((x : Int) - y - b + 2 ^ w) % 2 ^ w := by
        rw [Int.add_emod_self]
      rw [h1, Int.emod_eq_of_lt (by linarith) (by linarith)]
      push_cast; ring
    · rw [if_neg hd, Int.emod_eq_of_lt (by linarith) (by linarith)]
      push_cast; ring

theorem bigint_sub2_loop_spec (w : Nat) : ∀ (x y : List Nat) (b : Nat),
    x.length = y.length → (∀ a ∈ x, a < 2 ^ w) → (∀ a ∈ y, a < 2 ^ w) → b ≤ 1 →
    (bigint_sub2_loop w x y b).1.length = x.length ∧
    (∀ a ∈ (bigint_sub2_loop w x y b).1, a < 2 ^ w) ∧
    (bigint_sub2_loop w x y b).2 ≤ 1 ∧
    (limbsVal w (bigint_sub2_loop w x y b).1 : Int) =
      (limbsVal w x : Int) - limbsVal w y - b +
        ((bigint_sub2_loop w x y b).2 : Int) * 2 ^ (w * x.length)
  | [], [], b, _, _, _, hb => by simp [bigint_sub2_loop, limbsVal, hb]
  | [], _ :: _, _, h, _, _, _ => by simp at h
  | _ :: _, [], _, h, _, _, _ => by simp at h
  | x :: xs, y :: ys, b, hl, hx, hy, hb => by
    obtain ⟨h1, h2, h3⟩ := word_sub_spec w x y b (hx x (List.mem_cons_self _ _))
      (hy y (List.mem_cons_self _ _)) hb
    obtain ⟨i1, i2, i3, i4⟩ := bigint_sub2_loop_spec w xs ys (word_sub w x y b).2
      (by simpa using hl) (fun a ha => hx a (List.mem_cons_of_mem _ ha))
      (fun a ha => hy a (List.mem_cons_of_mem _ ha)) h2
    simp only [bigint_sub2_loop]
    refine ⟨by simp [i1], ?_, i3, ?_⟩
    · intro a ha
      simp only [List.mem_cons] at ha
      rcases ha with rfl | ha
      · exact h1
      · exact i2 a ha
    · simp only [limbsVal, List.length_cons, Nat.mul_succ, pow_add]
      push_cast
      rw [i4, h3]
      ring

theorem word_add_spec (w x y c : Nat) (hx : x < 2 ^ w) (hy : y < 2 ^ w) (hc : c ≤ 1) :
    (word_add w x y c).1 < 2 ^ w ∧ (word_add w x y c).2 ≤ 1 ∧
    (word_add w x y c).1 + (word_add w x y c).2 * 2 ^ w = x + y + c := by
  have hM : 0 < 2 ^ w := Nat.pow_pos (by decide)
  refine ⟨Nat.mod_lt _ hM, ?_, ?_⟩
  · simp only [word_add]
    have : x + y + c < 2 * 2 ^ w := by omega
    have := (Nat.div_lt_iff_lt_mul hM).2 this
    omega
  · simp only [word_add]
    rw [Nat.mul_comm]
    exact Nat.mod_add_div _ _

theorem bigint_cnd_add_loop_spec (w mask : Nat) (hm : mask < 2 ^ w) :
    ∀ (x y : List Nat) (c : Nat),
    x.length = y.length → (∀ a ∈ x, a < 2 ^ w) → c ≤ 1 →
    (bigint_cnd_add_loop w mask x y c).1.length = x.length ∧
    (∀ a ∈ (bigint_cnd_add_loop w mask x y c).1, a < 2 ^ w) ∧
    (bigint_cnd_add_loop w mask x y c).2 ≤ 1 ∧
    limbsVal w (bigint_cnd_add_loop w mask x y c).1 +
        (bigint_cnd_add_loop w mask x y c).2 * 2 ^ (w * x.length) =
      limbsVal w x + limbsVal w (y.map (· &&& mask)) + c
  | [], [], c, _, _, hc => by simp [bigint_cnd_add_loop, limbsVal, hc]
  | [], _ :: _, _, h, _, _ => by simp at h
  | _ :: _, [], _, h, _, _ => by simp at h
  | x :: xs, y :: ys, c, hl, hx, hc => by
    obtain ⟨h1, h2, h3⟩ := word_add_spec w x (y &&& mask) c (hx x (List.mem_cons_self _ _))
      (Nat.and_lt_two_pow _ hm) hc
    obtain ⟨i1, i2, i3, i4⟩ := bigint_cnd_add_loop_spec w mask hm xs ys
      (word_add w x (y &&& mask) c).2
      (by simpa using hl) (fun a ha => hx a (List.mem_cons_of_mem _ ha)) h2
    simp only [bigint_cnd_add_loop]
    refine ⟨by simp [i1], ?_, i3, ?_⟩
    · intro a ha
      simp only [List.mem_cons] at ha
      rcases ha with rfl | ha
      · exact h1
      · exact i2 a ha
    · simp only [limbsVal, List.length_cons, Nat.mul_succ, pow_add, List.map_cons]
      nlinarith [i4, h3]

theorem map_and_zero (ys : List Nat) (w : Nat) : limbsVal w (ys.map (· &&& 0)) = 0 := by
  induction ys with
  | nil => rfl
  | cons y ys ih =>
    show (y &&& 0) + 2 ^ w * limbsVal w (ys.map (· &&& 0)) = 0
    rw [ih, Nat.and_zero, Nat.mul_zero]

theorem map_and_ones (w : Nat) (ys : List Nat) (hy : ∀ a ∈ ys, a < 2 ^ w) :
    ys.map (· &&& (2 ^ w - 1)) = ys := by
  induction ys with
  | nil => rfl
  | cons y ys ih =>
    have h0 : y < 2 ^ w := hy y (List.mem_cons_self _ _)
    rw [List.map_cons, ih (fun a ha => hy a (List.mem_cons_of_mem _ ha)),
      Nat.and_pow_two_sub_one_eq_mod, Nat.mod_eq_of_lt h0]

/-! ## The accumulator, 32-bit words -/

theorem limbsVal_append (w : Nat) (xs ys : List Nat) :
    limbsVal w (xs ++ ys) = limbsVal w xs + 2 ^ (w * xs.length) * limbsVal w ys := by
  induction xs with
  | nil => simp [limbsVal]
  | cons x xs ih =>
    show x + 2 ^ w * limbsVal w (xs ++ ys) =
      x + 2 ^ w * limbsVal w xs + 2 ^ (w * (xs.length + 1)) * limbsVal w ys
    rw [ih, Nat.mul_succ, pow_add]
    ring

theorem limbsVal_replicate_zero (w n : Nat) : limbsVal w (List.replicate n 0) = 0 := by
  induction n with
  | zero => rfl
  | succ n ih => simp [List.replicate, limbsVal, ih]

theorem wrapInt64_eq_self (v : Int) (h1 : -2 ^ 63 ≤ v) (h2 : v < 2 ^ 63) :
    wrapInt64 v = v := by
  unfold wrapInt64
  rw [Int.emod_eq_of_lt (by linarith) (by linarith)]
  ring

theorem accumInv32_init : AccumInv32 (SolinasAccum.init (List.replicate 8 0)) 0 0 :=
  ⟨[], rfl, by simp, rfl, rfl, by simp [limbsVal, SolinasAccum.init],
    by simp [SolinasAccum.init], by simp [SolinasAccum.init]⟩

theorem accumInv32_step (s : SolinasAccum) (k : Nat) (T v : Int) (h : AccumInv32 s k T)
    (hk : k < 8) (hv1 : -2 ^ 36 ≤ v) (hv2 : v < 2 ^ 36) :
    AccumInv32 (s.accum 32 v) (k + 1) (T + v * 2 ^ (32 * k)) := by
  obtain ⟨rs, hlen, hrs, hr, hidx, hT, hS1, hS2⟩ := h
  have hw : wrapInt64 (s.m_S + v) = s.m_S + v :=
    wrapInt64_eq_self _ (by linarith) (by linarith)
  have hnn : (0 : Int) ≤ (s.m_S + v) % 2 ^ 32 := Int.emod_nonneg _ (by norm_num)
  have hlt : (s.m_S + v) % 2 ^ 32 < 2 ^ 32 := Int.emod_lt_of_pos _ (by norm_num)
  have hdm : (s.m_S + v) % 2 ^ 32 + 2 ^ 32 * ((s.m_S + v) / 2 ^ 32) = s.m_S + v :=
    Int.emod_add_ediv _ _
  refine ⟨rs ++ [((s.m_S + v) % 2 ^ 32).toNat], by simp [hlen], ?_, ?_, ?_, ?_, ?_, ?_⟩
  · intro a ha
    simp only [List.mem_append, List.mem_singleton] at ha
    rcases ha with ha | rfl
    · exact hrs a ha
    · have : ((((s.m_S + v) % 2 ^ 32).toNat : Nat) : Int) < ((2 ^ 32 : Nat) : Int) := by
        rw [Int.toNat_of_nonneg hnn]; exact_mod_cast hlt
      exact_mod_cast this
  · simp only [SolinasAccum.accum, hw, if_true, hr, hidx]
    have h8 : 8 - k = (8 - (k + 1)) + 1 := by omega
    rw [h8, List.replicate_succ, ← hlen, List.set_append_right _ _ (le_refl _)]
    simp
  · simp [SolinasAccum.accum, hidx]
  · simp only [SolinasAccum.accum, hw]
    rw [limbsVal_append]
    simp only [limbsVal, hlen, Nat.mul_zero, Nat.add_zero]
    simp only [Nat.cast_add, Nat.cast_mul, Nat.cast_pow, Nat.cast_ofNat]
    rw [Int.toNat_of_nonneg hnn, ← hT, Nat.mul_succ, pow_add]
    linear_combination (2 ^ (32 * k) : Int) * hdm
  · simp only [SolinasAccum.accum, hw]
    omega
  · simp only [SolinasAccum.accum, hw]
    omega

/-! ## `redc`, 32-bit words -/

theorem P32_eq : P 32 = [0xFFFFFFFF, 0xFFFFFFFF, 0, 0xFFFFFFFF, 0xFFFFFFFF, 0xFFFFFFFF,
    0xFFFFFFFF, 0xFFFFFFFE] := by decide

theorem limbsVal_P32 : limbsVal 32 (P 32) = Params.P := by decide

theorem sm2_mul_mod_256_32 (i : Nat) (hi : i ≤ 2 ^ 32 - 2) :
    sm2_mul_mod_256 32 i = [0xFFFFFFFF - i, 0xFFFFFFFF, i, 0xFFFFFFFF - i, 0xFFFFFFFF,
      0xFFFFFFFF, 0xFFFFFFFF, 0xFFFFFFFE - i] := by
  unfold sm2_mul_mod_256
  rw [P32_eq]
  simp only [if_true, List.set, List.getD, List.get?, Option.getD,
    wsub, wadd]
  norm_num at hi ⊢
  refine ⟨?_, ?_, ?_, ?_⟩ <;> omega

theorem limbsVal_sm2_mul_mod_256_32 (i : Nat) (hi : i ≤ 2 ^ 32 - 2) :
    limbsVal 32 (sm2_mul_mod_256 32 i) + i * (2 ^ 256 - Params.P) = Params.P := by
  rw [sm2_mul_mod_256_32 i hi]
  simp only [limbsVal, Params.P]
  norm_num at hi ⊢
  omega

theorem sm2_mul_mod_256_32_wordArray (i : Nat) (hi : i ≤ 2 ^ 32 - 2) :
    WordArray 32 8 (sm2_mul_mod_256 32 i) := by
  rw [sm2_mul_mod_256_32 i hi]
  refine ⟨rfl, ?_⟩
  intro a ha
  simp only [List.mem_cons, List.mem_singleton, List.not_mem_nil, or_false] at ha
  norm_num
  omega

/-- The unfolding of `redc` into its three phases. -/
theorem redc_eq_phases (w : Nat) (z : List Nat) :
    redc w z = redc_finish w (redc_accum w (redc_sums w z)).m_r
      ((redc_accum w (redc_sums w z)).final_carry w 0).2 := rfl

theorem redc_finish32_spec (rs : List Nat) (S : Nat) (hrs : WordArray 32 8 rs)
    (hS : S ≤ 13) :
    WordArray 32 8 (redc_finish 32 rs S) ∧ limbsVal 32 (redc_finish 32 rs S) < Params.P ∧
    ∃ k : Nat, limbsVal 32 (redc_finish 32 rs S) + k * Params.P =
      limbsVal 32 rs + S * 2 ^ 256 := by
  have hS2 : S ≤ 2 ^ 32 - 2 := by norm_num; omega
  have hcv := limbsVal_sm2_mul_mod_256_32 S hS2
  have hcw := sm2_mul_mod_256_32_wordArray S hS2
  obtain ⟨s1, s2, s3, s4⟩ := bigint_sub2_loop_spec 32 rs (sm2_mul_mod_256 32 S) 0
    (by rw [hrs.1, hcw.1]) hrs.2 hcw.2 (by decide)
  have hr := limbsVal_lt 32 rs hrs.2
  have ho := limbsVal_lt 32 _ s2
  rw [s1] at ho
  rw [hrs.1] at s1 s4 hr ho
  have hPw : WordArray 32 8 (P 32) := by decide
  unfold redc_finish bigint_cnd_add bigint_sub2
  generalize bigint_sub2_loop 32 rs (sm2_mul_mod_256 32 S) 0 = sub at s1 s2 s3 s4 ho ⊢
  obtain ⟨out, b⟩ := sub
  simp only at s1 s2 s3 s4 ho ⊢
  have hb : b = 0 ∨ b = 1 := by omega
  rcases hb with rfl | rfl
  · obtain ⟨c1, c2, c3, c4⟩ := bigint_cnd_add_loop_spec 32 0 (by norm_num) out (P 32) 0
      (by rw [s1, hPw.1]) s2 (by decide)
    simp only [if_true]
    rw [map_and_zero] at c4
    have hq := limbsVal_lt 32 _ c2
    rw [c1] at hq
    rw [s1] at hq c4 c1
    generalize bigint_cnd_add_loop 32 0 out (P 32) 0 = res at c1 c2 c3 c4 hq ⊢
    refine ⟨⟨c1, c2⟩, ?_, S + 1, ?_⟩
    · simp only [Params.P] at hcv ⊢
      norm_num at hcv s4 hq c4 hr ho ⊢
      omega
    · simp only [Params.P] at hcv ⊢
      norm_num at hcv s4 hq c4 hr ho ⊢
      omega
  · obtain ⟨c1, c2, c3, c4⟩ := bigint_cnd_add_loop_spec 32 (2 ^ 32 - 1) (by norm_num) out
      (P 32) 0 (by rw [s1, hPw.1]) s2 (by decide)
    simp only [if_neg one_ne_zero]
    rw [map_and_ones 32 _ hPw.2, limbsVal_P32] at c4
    have hq := limbsVal_lt 32 _ c2
    rw [c1] at hq
    rw [s1] at hq c4 c1
    generalize bigint_cnd_add_loop 32 (2 ^ 32 - 1) out (P 32) 0 = res at c1 c2 c3 c4 hq ⊢
    refine ⟨⟨c1, c2⟩, ?_, S, ?_⟩
    · simp only [Params.P] at hcv c4 ⊢
      norm_num at hcv s4 hq c4 hr ho ⊢
      omega
    · simp only [Params.P] at hcv c4 ⊢
      norm_num at hcv s4 hq c4 hr ho ⊢
      omega

/-- Running `accum` over a list of partial sums keeps the accumulator invariant. -/
theorem accumInv32_foldl : ∀ (ss : List Int) (s : SolinasAccum) (k : Nat) (T : Int),
    AccumInv32 s k T → k + ss.length ≤ 8 → (∀ v ∈ ss, -2 ^ 36 ≤ v ∧ v < 2 ^ 36) →
    AccumInv32 (ss.foldl (SolinasAccum.accum 32) s) (k + ss.length)
      (T + 2 ^ (32 * k) * sumsVal ss)
  | [], s, k, T, h, _, _ => by simpa [sumsVal] using h
  | v :: ss, s, k, T, h, hk, hv => by
    have hk1 : k < 8 := by simp only [List.length_cons] at hk; omega
    have hv0 := hv v (List.mem_cons_self _ _)
    have h1 := accumInv32_step s k T v h hk1 hv0.1 hv0.2
    have h2 := accumInv32_foldl ss (s.accum 32 v) (k + 1) _ h1
      (by simp only [List.length_cons] at hk; omega)
      (fun a ha => hv a (List.mem_cons_of_mem _ ha))
    have e1 : k + (v :: ss).length = k + 1 + ss.length := by
      simp only [List.length_cons]; omega
    have e2 : T + 2 ^ (32 * k) * sumsVal (v :: ss) =
        T + v * 2 ^ (32 * k) + 2 ^ (32 * (k + 1)) * sumsVal ss := by
      simp only [sumsVal, Nat.mul_succ, pow_add]; ring
    rw [e1, e2]
    exact h2

theorem redc_sums32_unfold (x0 x1 x2 x3 x4 x5 x6 x7 x8 x9 x10 x11 x12 x13 x14 x15 : Nat)
    (h0 : x0 < 2 ^ 32) (h1 : x1 < 2 ^ 32) (h2 : x2 < 2 ^ 32) (h3 : x3 < 2 ^ 32)
    (h4 : x4 < 2 ^ 32) (h5 : x5 < 2 ^ 32) (h6 : x6 < 2 ^ 32) (h7 : x7 < 2 ^ 32)
    (h8 : x8 < 2 ^ 32) (h9 : x9 < 2 ^ 32) (h10 : x10 < 2 ^ 32) (h11 : x11 < 2 ^ 32)
    (h12 : x12 < 2 ^ 32) (h13 : x13 < 2 ^ 32) (h14 : x14 < 2 ^ 32) (h15 : x15 < 2 ^ 32) :
    redc_sums 32 [x0, x1, x2, x3, x4, x5, x6, x7, x8, x9, x10, x11, x12, x13, x14, x15] =
      [(x0 : Int) + x8 + x9 + x10 + x11 + x12 + 2 * (x13 + x14 + x15),
       (x1 : Int) + x9 + x10 + x11 + x12 + x13 + 2 * (x14 + x15),
       (x2 : Int) - (x8 + x9 + x13 + x14),
       (x3 : Int) + x8 + x11 + x12 + 2 * x13 + x14 + x15,
       (x4 : Int) + x9 + x12 + x13 + 2 * x14 + x15,
       (x5 : Int) + x10 + x13 + x14 + 2 * x15,
       (x6 : Int) + x11 + x14 + x15,
       (x7 : Int) + x8 + x9 + x10 + x11 + 2 * (x12 + x13 + x14 + x15) + x15] := by
  have e : redc_sums 32 [x0, x1, x2, x3, x4, x5, x6, x7, x8, x9, x10, x11, x12, x13, x14,
      x15] =
      [wrapInt64 (((x0 % 2 ^ 32 : Nat) : Int) + (x8 % 2 ^ 32 : Nat) + (x9 % 2 ^ 32 : Nat)
          + (x10 % 2 ^ 32 : Nat) + (x11 % 2 ^ 32 : Nat) + (x12 % 2 ^ 32 : Nat)
          + 2 * ((x13 % 2 ^ 32 : Nat) + (x14 % 2 ^ 32 : Nat) + (x15 % 2 ^ 32 : Nat))),
       wrapInt64 (((x1 % 2 ^ 32 : Nat) : Int) + (x9 % 2 ^ 32 : Nat) + (x10 % 2 ^ 32 : Nat)
          + (x11 % 2 ^ 32 : Nat) + (x12 % 2 ^ 32 : Nat) + (x13 % 2 ^ 32 : Nat)
          + 2 * ((x14 % 2 ^ 32 : Nat) + (x15 % 2 ^ 32 : Nat))),
       wrapInt64 (((x2 % 2 ^ 32 : Nat) : Int) - ((x8 % 2 ^ 32 : Nat) + (x9 % 2 ^ 32 : Nat)
          + (x13 % 2 ^ 32 : Nat) + (x14 % 2 ^ 32 : Nat))),
       wrapInt64 (((x3 % 2 ^ 32 : Nat) : Int) + (x8 % 2 ^ 32 : Nat) + (x11 % 2 ^ 32 : Nat)
          + (x12 % 2 ^ 32 : Nat) + 2 * (x13 % 2 ^ 32 : Nat) + (x14 % 2 ^ 32 : Nat)
          + (x15 % 2 ^ 32 : Nat)),
       wrapInt64 (((x4 % 2 ^ 32 : Nat) : Int) + (x9 % 2 ^ 32 : Nat) + (x12 % 2 ^ 32 : Nat)
          + (x13 % 2 ^ 32 : Nat) + 2 * (x14 % 2 ^ 32 : Nat) + (x15 % 2 ^ 32 : Nat)),
       wrapInt64 (((x5 % 2 ^ 32 : Nat) : Int) + (x10 % 2 ^ 32 : Nat) + (x13 % 2 ^ 32 : Nat)
          + (x14 % 2 ^ 32 : Nat) + 2 * (x15 % 2 ^ 32 : Nat)),
       wrapInt64 (((x6 % 2 ^ 32 : Nat) : Int) + (x11 % 2 ^ 32 : Nat) + (x14 % 2 ^ 32 : Nat)
          + (x15 % 2 ^ 32 : Nat)),
       wrapInt64 (((x7 % 2 ^ 32 : Nat) : Int) + (x8 % 2 ^ 32 : Nat) + (x9 % 2 ^ 32 : Nat)
          + (x10 % 2 ^ 32 : Nat) + (x11 % 2 ^ 32 : Nat)
          + 2 * ((x12 % 2 ^ 32 : Nat) + (x13 % 2 ^ 32 : Nat) + (x14 % 2 ^ 32 : Nat)
            + (x15 % 2 ^ 32 : Nat)) + (x15 % 2 ^ 32 : Nat))] := rfl
  rw [e]
  simp only [Nat.mod_eq_of_lt h0, Nat.mod_eq_of_lt h1, Nat.mod_eq_of_lt h2,
    Nat.mod_eq_of_lt h3, Nat.mod_eq_of_lt h4, Nat.mod_eq_of_lt h5, Nat.mod_eq_of_lt h6,
    Nat.mod_eq_of_lt h7, Nat.mod_eq_of_lt h8, Nat.mod_eq_of_lt h9, Nat.mod_eq_of_lt h10,
    Nat.mod_eq_of_lt h11, Nat.mod_eq_of_lt h12, Nat.mod_eq_of_lt h13,
    Nat.mod_eq_of_lt h14, Nat.mod_eq_of_lt h15]
  rw [wrapInt64_eq_self _ (by omega) (by omega), wrapInt64_eq_self _ (by omega) (by omega),
    wrapInt64_eq_self _ (by omega) (by omega), wrapInt64_eq_self _ (by omega) (by omega),
    wrapInt64_eq_self _ (by omega) (by omega), wrapInt64_eq_self _ (by omega) (by omega),
    wrapInt64_eq_self _ (by omega) (by omega), wrapInt64_eq_self _ (by omega) (by omega)]

set_option maxRecDepth 4000 in
/-- What the partial sums of `redc` are, for a well-formed 32-bit input: eight small
integers whose weighted total is non-negative, below `14 * 2^256`, and differs from the
input by a multiple of `P`. -/
theorem redc_sums32_facts (z : List Nat) (hz : WordArray 32 16 z) :
    (redc_sums 32 z).length = 8 ∧
    (∀ v ∈ redc_sums 32 z, -2 ^ 36 ≤ v ∧ v < 2 ^ 36) ∧
    0 ≤ sumsVal (redc_sums 32 z) ∧ sumsVal (redc_sums 32 z) < 14 * 2 ^ 256 ∧
    ∃ Q : Nat, (limbsVal 32 z : Int) = sumsVal (redc_sums 32 z) + Params.P * Q := by
  obtain ⟨hl, hb⟩ := hz
  match z, hl, hb with
  | [x0, x1, x2, x3, x4, x5, x6, x7, x8, x9, x10, x11, x12, x13, x14, x15], _, hb =>
    have h0 : x0 < 2 ^ 32 := hb x0 (by simp)
    have h1 : x1 < 2 ^ 32 := hb x1 (by simp)
    have h2 : x2 < 2 ^ 32 := hb x2 (by simp)
    have h3 : x3 < 2 ^ 32 := hb x3 (by simp)
    have h4 : x4 < 2 ^ 32 := hb x4 (by simp)
    have h5 : x5 < 2 ^ 32 := hb x5 (by simp)
    have h6 : x6 < 2 ^ 32 := hb x6 (by simp)
    have h7 : x7 < 2 ^ 32 := hb x7 (by simp)
    have h8 : x8 < 2 ^ 32 := hb x8 (by simp)
    have h9 : x9 < 2 ^ 32 := hb x9 (by simp)
    have h10 : x10 < 2 ^ 32 := hb x10 (by simp)
    have h11 : x11 < 2 ^ 32 := hb x11 (by simp)
    have h12 : x12 < 2 ^ 32 := hb x12 (by simp)
    have h13 : x13 < 2 ^ 32 := hb x13 (by simp)
    have h14 : x14 < 2 ^ 32 := hb x14 (by simp)
    have h15 : x15 < 2 ^ 32 := hb x15 (by simp)
    clear hb
    rw [redc_sums32_unfold x0 x1 x2 x3 x4 x5 x6 x7 x8 x9 x10 x11 x12 x13 x14 x15
      h0 h1 h2 h3 h4 h5 h6 h7 h8 h9 h10 h11 h12 h13 h14 h15]
    refine ⟨rfl, ?_, ?_, ?_, ?_⟩
    · intro v hv
      simp only [List.mem_cons, List.mem_singleton, List.not_mem_nil, or_false] at hv
      rcases hv with rfl | rfl | rfl | rfl | rfl | rfl | rfl | rfl <;>
        constructor <;> omega
    · simp only [sumsVal]
      have l0 : (0 : Int) ≤ x0 := Int.natCast_nonneg _
      have l1 : (0 : Int) ≤ x1 := Int.natCast_nonneg _
      have l2 : (0 : Int) ≤ x2 := Int.natCast_nonneg _
      have l3 : (0 : Int) ≤ x3 := Int.natCast_nonneg _
      have l4 : (0 : Int) ≤ x4 := Int.natCast_nonneg _
      have l5 : (0 : Int) ≤ x5 := Int.natCast_nonneg _
      have l6 : (0 : Int) ≤ x6 := Int.natCast_nonneg _
      have l7 : (0 : Int) ≤ x7 := Int.natCast_nonneg _
      have l8 : (0 : Int) ≤ x8 := Int.natCast_nonneg _
      have l9 : (0 : Int) ≤ x9 := Int.natCast_nonneg _
      have l10 : (0 : Int) ≤ x10 := Int.natCast_nonneg _
      have l11 : (0 : Int) ≤ x11 := Int.natCast_nonneg _
      have l12 : (0 : Int) ≤ x12 := Int.natCast_nonneg _
      have l13 : (0 : Int) ≤ x13 := Int.natCast_nonneg _
      have l14 : (0 : Int) ≤ x14 := Int.natCast_nonneg _
      have l15 : (0 : Int) ≤ x15 := Int.natCast_nonneg _
      linarith
    · simp only [sumsVal]
      have u0 : (x0 : Int) < 2 ^ 32 := by exact_mod_cast h0
      have u1 : (x1 : Int) < 2 ^ 32 := by exact_mod_cast h1
      have u2 : (x2 : Int) < 2 ^ 32 := by exact_mod_cast h2
      have u3 : (x3 : Int) < 2 ^ 32 := by exact_mod_cast h3
      have u4 : (x4 : Int) < 2 ^ 32 := by exact_mod_cast h4
      have u5 : (x5 : Int) < 2 ^ 32 := by exact_mod_cast h5
      have u6 : (x6 : Int) < 2 ^ 32 := by exact_mod_cast h6
      have u7 : (x7 : Int) < 2 ^ 32 := by exact_mod_cast h7
      have u8 : (x8 : Int) < 2 ^ 32 := by exact_mod_cast h8
      have u9 : (x9 : Int) < 2 ^ 32 := by exact_mod_cast h9
      have u10 : (x10 : Int) < 2 ^ 32 := by exact_mod_cast h10
      have u11 : (x11 : Int) < 2 ^ 32 := by exact_mod_cast h11
      have u12 : (x12 : Int) < 2 ^ 32 := by exact_mod_cast h12
      have u13 : (x13 : Int) < 2 ^ 32 := by exact_mod_cast h13
      have u14 : (x14 : Int) < 2 ^ 32 := by exact_mod_cast h14
      have u15 : (x15 : Int) < 2 ^ 32 := by exact_mod_cast h15
      have l2 : (0 : Int) ≤ x2 := Int.natCast_nonneg _
      have l8 : (0 : Int) ≤ x8 := Int.natCast_nonneg _
      have l9 : (0 : Int) ≤ x9 := Int.natCast_nonneg _
      have l13 : (0 : Int) ≤ x13 := Int.natCast_nonneg _
      have l14 : (0 : Int) ≤ x14 := Int.natCast_nonneg _
      linarith
    · refine ⟨x8 + 4294967297 * x9 + 18446744078004518913 * x10
        + 79228162532711081671548469249 * x11
        + 340282367000166625996085689103316680705 * x12
        + 1461501637671185285203851458712368708759249223682 * x13
        + 6277101736848182401506974708411517874814724153227578703874 * x14
        + 26959946673427741531515197488526605382048662297373743378404898504706 * x15, ?_⟩
      simp only [sumsVal, limbsVal, Params.P]
      push_cast
      ring

/-- The accumulation phase of `redc`, 32-bit words: eight well-formed limbs `r` and a carry
`S` in `0..13` with `r + S * 2^256` the weighted total of the partial sums. -/
theorem redc_accum32_spec (z : List Nat) (hz : WordArray 32 16 z) :
    WordArray 32 8 (redc_accum 32 (redc_sums 32 z)).m_r ∧
    0 ≤ (redc_accum 32 (redc_sums 32 z)).m_S ∧ (redc_accum 32 (redc_sums 32 z)).m_S ≤ 13 ∧
    (limbsVal 32 (redc_accum 32 (redc_sums 32 z)).m_r : Int) +
      (redc_accum 32 (redc_sums 32 z)).m_S * 2 ^ 256 = sumsVal (redc_sums 32 z) := by
  obtain ⟨hlen, hbd, hT0, hT1, -⟩ := redc_sums32_facts z hz
  have I := accumInv32_foldl (redc_sums 32 z) _ 0 0 accumInv32_init
    (by rw [hlen]) hbd
  rw [hlen] at I
  change AccumInv32 (redc_accum 32 (redc_sums 32 z)) 8 _ at I
  generalize redc_accum 32 (redc_sums 32 z) = sum at I ⊢
  generalize sumsVal (redc_sums 32 z) = T at I hT0 hT1 ⊢
  obtain ⟨rs, hl, hrs, hr, hidx, hT, hS1, hS2⟩ := I
  simp only [Nat.sub_self, List.replicate_zero, List.append_nil] at hr
  have hrv := limbsVal_lt 32 rs hrs
  rw [hl] at hrv
  rw [hr]
  norm_num at hT hrv hT1 ⊢
  refine ⟨⟨hl, hrs⟩, ?_, ?_, ?_⟩ <;> omega

/-- The closing arithmetic of `redc`: a value below `P` that differs from `z` by a multiple
of `P` is `z % P`. -/
theorem redc_close (z out r k Q : Nat) (m T : Int) (hm : 0 ≤ m)
    (hQ : (z : Int) = T + Params.P * Q) (hT : (r : Int) + m * 2 ^ 256 = T)
    (f3 : out + k * Params.P = r + m.toNat * 2 ^ 256) (f2 : out < Params.P) :
    out = z % Params.P := by
  have hk : ((m.toNat : Nat) : Int) = m := Int.toNat_of_nonneg hm
  have f5 : (out : Int) + k * Params.P = r + m * 2 ^ 256 := by
    rw [← hk]
    have := congrArg (Nat.cast : Nat → Int) f3
    simp only [Nat.cast_add, Nat.cast_mul, Nat.cast_pow, Nat.cast_ofNat] at this
    exact this
  have f6 : (z : Int) = out + Params.P * (k + Q) := by
    rw [hQ, ← hT]
    linear_combination -f5
  have f4 : z = out + Params.P * (k + Q) := by
    have h : ((z : Nat) : Int) = ((out + Params.P * (k + Q) : Nat) : Int) := by
      simp only [Nat.cast_add, Nat.cast_mul]
      exact f6
    exact Int.ofNat.inj h
  rw [f4, Nat.add_mul_mod_self_left, Nat.mod_eq_of_lt f2]

theorem redc32_spec (z : List Nat) (hz : WordArray 32 16 z) :
    WordArray 32 8 (redc 32 z) ∧ limbsVal 32 (redc 32 z) = limbsVal 32 z % Params.P := by
  obtain ⟨-, -, -, -, Q, hQ⟩ := redc_sums32_facts z hz
  obtain ⟨hw, hS0, hS1, hT⟩ := redc_accum32_spec z hz
  rw [redc_eq_phases]
  generalize redc_accum 32 (redc_sums 32 z) = sum at hw hS0 hS1 hT ⊢
  have hfc : (sum.final_carry 32 0).2 = sum.m_S.toNat := by
    simp only [SolinasAccum.final_carry, add_zero]
    have a1 : -2 ^ 63 ≤ sum.m_S := by omega
    have a2 : sum.m_S < 2 ^ 63 := by omega
    have a3 : sum.m_S < 2 ^ 32 := by omega
    rw [wrapInt64_eq_self _ a1 a2, Int.emod_eq_of_lt hS0 a3]
  rw [hfc]
  obtain ⟨f1, f2, k, f3⟩ := redc_finish32_spec sum.m_r sum.m_S.toNat hw (by omega)
  refine ⟨f1, ?_⟩
  exact redc_close _ _ _ k Q _ _ hS0 hQ hT f3 f2

/-! ## Primality of `P` -/

theorem powModAux_eq (m : Nat) : ∀ (fuel b e acc : Nat), e < 2 ^ fuel →
    powModAux m fuel b e acc = acc * b ^ e % m
  | 0, b, e, acc, h => by
    have : e = 0 := by simpa using h
    subst this
    simp [powModAux]
  | fuel + 1, b, e, acc, h => by
    unfold powModAux
    split
    · next h0 => subst h0; simp
    · next h0 =>
      have h2 : e / 2 < 2 ^ fuel := by
        rw [pow_succ] at h
        omega
      rw [powModAux_eq m fuel _ _ _ h2]
      have he : e = 2 * (e / 2) + e % 2 := (Nat.div_add_mod e 2).symm
      have hsq : (b * b % m) ^ (e / 2) % m = b ^ (2 * (e / 2)) % m := by
        rw [← Nat.pow_mod, pow_mul, pow_two]
      split
      · next h1 =>
        conv_rhs => rw [he, h1, pow_add, pow_one]
        rw [Nat.mul_mod, Nat.mod_mod, ← Nat.mul_mod, Nat.mul_mod (acc * b), hsq,
          ← Nat.mul_mod]
        congr 1; ring
      · next h1 =>
        have h1' : e % 2 = 0 := by omega
        conv_rhs => rw [he, h1', Nat.add_zero]
        rw [Nat.mul_mod, hsq, ← Nat.mul_mod]

theorem powMod_eq (b e m : Nat) : powMod b e m = b ^ e % m := by
  unfold powMod
  rw [powModAux_eq m _ _ _ _ (Nat.lt_two_pow e), Nat.one_mul]

/-- Lucas test on natural numbers: `a` has order `p - 1` modulo `p`, checked against the
full list of prime factors of `p - 1`. -/
theorem prime_of_lucas (p a : Nat) (qs : List Nat) (hprod : qs.prod = p - 1)
    (hqs : ∀ q ∈ qs, q.Prime) (h1 : powMod a (p - 1) p = 1)
    (hall : ∀ q ∈ qs, powMod a ((p - 1) / q) p ≠ 1) : p.Prime := by
  apply lucas_primality p (a : ZMod p)
  · rw [powMod_eq] at h1
    have : ((a ^ (p - 1) : Nat) : ZMod p) = ((1 : Nat) : ZMod p) := by
      rw [ZMod.natCast_eq_natCast_iff, Nat.ModEq, h1]
      rcases Nat.lt_or_ge 1 p with hp | hp
      · exact (Nat.mod_eq_of_lt hp).symm
      · interval_cases p <;> simp_all
    simpa using this
  · intro q hq hdvd h
    rw [← hprod] at hdvd
    obtain ⟨r, hr, hqr⟩ := (Prime.dvd_prod_iff hq.prime).1 hdvd
    have hqr' : q = r := (Nat.prime_dvd_prime_iff_eq hq (hqs r hr)).1 hqr
    subst hqr'
    apply hall q hr
    rw [powMod_eq]
    have h2 : ((a ^ ((p - 1) / q) : Nat) : ZMod p) = ((1 : Nat) : ZMod p) := by
      simpa using h
    rw [ZMod.natCast_eq_natCast_iff, Nat.ModEq] at h2
    rw [h2]
    rw [powMod_eq] at h1
    rcases Nat.lt_or_ge 1 p with hp | hp
    · exact Nat.mod_eq_of_lt hp
    · interval_cases p <;> simp_all

theorem prime_3017783777 : Nat.Prime 3017783777 :=
  prime_of_lucas 3017783777 3
    [2, 2, 2, 2, 2, 7, 7, 337, 5711]
    (by decide)
    (by
      intro q hq
      simp only [List.mem_cons, List.mem_singleton, List.not_mem_nil, or_false] at hq
      rcases hq with rfl | rfl | rfl | rfl | rfl | rfl | rfl | rfl | rfl <;> first | norm_num)
    (by decide) (by decide)

theorem prime_348253387243 : Nat.Prime 348253387243 :=
  prime_of_lucas 348253387243 3
    [2, 3, 61, 5303, 179429]
    (by decide)
    (by
      intro q hq
      simp only [List.mem_cons, List.mem_singleton, List.not_mem_nil, or_false] at hq
      rcases hq with rfl | rfl | rfl | rfl | rfl <;> first | norm_num)
    (by decide) (by decide)

theorem prime_4641351449027 : Nat.Prime 4641351449027 :=
  prime_of_lucas 4641351449027 2
    [2, 769, 3017783777]
    (by decide)
    (by
      intro q hq
      simp only [List.mem_cons, List.mem_singleton, List.not_mem_nil, or_false] at hq
      rcases hq with rfl | rfl | rfl <;> first | exact prime_3017783777 | norm_num)
    (by decide) (by decide)

theorem prime_417514796639753 : Nat.Prime 417514796639753 :=
  prime_of_lucas 417514796639753 3
    [2, 2, 2, 7, 367, 2473, 8214737]
    (by decide)
    (by
      intro q hq
      simp only [List.mem_cons, List.mem_singleton, List.not_mem_nil, or_false] at hq
      rcases hq with rfl | rfl | rfl | rfl | rfl | rfl | rfl <;> first | norm_num)
    (by decide) (by decide)

theorem prime_4773264379806847 : Nat.Prime 4773264379806847 :=
  prime_of_lucas 4773264379806847 3
    [2, 3, 7, 11, 823, 34511, 363761]
    (by decide)
    (by
      intro q hq
      simp only [List.mem_cons, List.mem_singleton, List.not_mem_nil, or_false] at hq
      rcases hq with rfl | rfl | rfl | rfl | rfl | rfl | rfl <;> first | norm_num)
    (by decide) (by decide)

set_option maxRecDepth 100000 in
theorem prime_66013261729388519804782124120027 : Nat.Prime 66013261729388519804782124120027 :=
  prime_of_lucas 66013261729388519804782124120027 2
    [2, 13, 1213, 71209, 6158099, 4773264379806847]
    (by decide)
    (by
      intro q hq
      simp only [List.mem_cons, List.mem_singleton, List.not_mem_nil, or_false] at hq
      rcases hq with rfl | rfl | rfl | rfl | rfl | rfl <;> first | exact prime_4773264379806847 | norm_num)
    (by decide) (by decide)

set_option maxRecDepth 100000 in
theorem prime_sm2_P : Nat.Prime 115792089210356248756420345214020892766250353991924191454421193933289684991999 :=
  prime_of_lucas 115792089210356248756420345214020892766250353991924191454421193933289684991999 13
    [2, 43, 30223, 348253387243, 4641351449027, 417514796639753, 66013261729388519804782124120027]
    (by decide)
    (by
      intro q hq
      simp only [List.mem_cons, List.mem_singleton, List.not_mem_nil, or_false] at hq
      rcases hq with rfl | rfl | rfl | rfl | rfl | rfl | rfl <;> first | exact prime_348253387243 | exact prime_4641351449027 | exact prime_417514796639753 | exact prime_66013261729388519804782124120027 | norm_num)
    (by decide) (by decide)

/-! ## Field multiplication and the inversion chain, 32-bit words -/

theorem mul32_spec (a b : List Nat) (ha : WordArray 32 8 a) (hb : WordArray 32 8 b) :
    WordArray 32 8 (FieldElement.mul 32 a b) ∧
    limbsVal 32 (FieldElement.mul 32 a b) = limbsVal 32 a * limbsVal 32 b % Params.P := by
  have hva := limbsVal_lt 32 a ha.2
  have hvb := limbsVal_lt 32 b hb.2
  rw [ha.1] at hva
  rw [hb.1] at hvb
  have hprod : limbsVal 32 a * limbsVal 32 b < 2 ^ (32 * 16) := by
    have e : (2 : Nat) ^ (32 * 16) = 2 ^ (32 * 8) * 2 ^ (32 * 8) := by norm_num
    rw [e]
    exact Nat.mul_lt_mul'' hva hvb
  have h := redc32_spec (toLimbs 32 16 (limbsVal 32 a * limbsVal 32 b))
    (toLimbs_wordArray 32 16 _)
  rw [limbsVal_toLimbs, Nat.mod_eq_of_lt hprod] at h
  exact h

theorem IsPow32.base (x : List Nat) (hx : WordArray 32 8 x) (hlt : limbsVal 32 x < Params.P) :
    IsPow32 x 1 x :=
  ⟨hx, by rw [pow_one, Nat.mod_eq_of_lt hlt]⟩

theorem IsPow32.mul {x s t : List Nat} {a b : Nat} (hs : IsPow32 x a s) (ht : IsPow32 x b t) :
    IsPow32 x (a + b) (FieldElement.mul 32 s t) := by
  obtain ⟨h1, h2⟩ := mul32_spec s t hs.1 ht.1
  refine ⟨h1, ?_⟩
  rw [h2, hs.2, ht.2, pow_add, ← Nat.mul_mod]

theorem IsPow32.square {x t : List Nat} {a : Nat} (ht : IsPow32 x a t) :
    IsPow32 x (2 * a) (FieldElement.square 32 t) := by
  have h := IsPow32.mul ht ht
  rw [← two_mul] at h
  exact h

theorem IsPow32.square_n {x : List Nat} : ∀ (k : Nat) {t : List Nat} {a : Nat},
    IsPow32 x a t → IsPow32 x (2 ^ k * a) (FieldElement.square_n 32 t k)
  | 0, t, a, ht => by simpa [FieldElement.square_n] using ht
  | k + 1, t, a, ht => by
    have h := IsPow32.square_n k (IsPow32.square ht)
    have e : 2 ^ (k + 1) * a = 2 ^ k * (2 * a) := by rw [pow_succ]; ring
    rw [e]
    exact h

/-- The exponent the addition chain of `fe_invert2` reaches, step by step. -/
theorem fe_invert2_isPow (x : List Nat) (hx : WordArray 32 8 x)
    (hlt : limbsVal 32 x < Params.P) :
    IsPow32 x (Params.P - 3) (Curve.fe_invert2 32 x) := by
  have x1 := IsPow32.base x hx hlt
  have s1 : IsPow32 x 2 _ := IsPow32.square x1
  have s2 : IsPow32 x 3 _ := IsPow32.mul x1 s1
  have s3 : IsPow32 x 6 _ := IsPow32.square s2
  have s4 : IsPow32 x 7 _ := IsPow32.mul s3 x1
  have s5 : IsPow32 x 56 _ := IsPow32.square_n 3 s4
  have s6 : IsPow32 x 63 _ := IsPow32.mul s5 s4
  have s7 : IsPow32 x 126 _ := IsPow32.square s6
  have s8 : IsPow32 x 127 _ := IsPow32.mul s7 x1
  have s9 : IsPow32 x 4032 _ := IsPow32.square_n 5 s7
  have s10 : IsPow32 x 4095 _ := IsPow32.mul s6 s9
  have s11 : IsPow32 x 16773120 _ := IsPow32.square_n 12 s10
  have s12 : IsPow32 x 16777215 _ := IsPow32.mul s10 s11
  have s13 : IsPow32 x 2147483520 _ := IsPow32.square_n 7 s12
  have s14 : IsPow32 x 2147483647 _ := IsPow32.mul s8 s13
  have s15 : IsPow32 x 8589934588 _ := IsPow32.square_n 2 s14
  have s16 : IsPow32 x 4611686016279904256 _ := IsPow32.square_n 29 s15
  have s17 : IsPow32 x 4611686018427387903 _ := IsPow32.mul s14 s16
  have s18 : IsPow32 x 18446744065119617024 _ := IsPow32.square_n 2 s16
  have s19 : IsPow32 x 18446744073709551612 _ := IsPow32.mul s15 s18
  have s20 : IsPow32 x 18446744073709551615 _ := IsPow32.mul s2 s19
  have s21 : IsPow32 x 79228162477370849446124847104 _ := IsPow32.square_n 32 s18
  have s22 : IsPow32 x 79228162495817593519834398719 _ := IsPow32.mul s21 s20
  have s23 : IsPow32 x 1461501636990620551282746369234461668150454779904 _ := IsPow32.square_n 64 s22
  have s24 : IsPow32 x 1461501636990620551282746369252908412224164331519 _ := IsPow32.mul s20 s23
  have s25 : IsPow32 x 28948022302589062189105086303505223191562588497981047863600686797303993860096 _ := IsPow32.square_n 94 s24
  have s26 : IsPow32 x 28948022302589062189105086303505223191562588497981047863605298483322421247999 _ := IsPow32.mul s17 s25
  have s27 : IsPow32 x 115792089210356248756420345214020892766250353991924191454421193933289684991996 _ := IsPow32.square_n 2 s26
  exact s27

/-! ## Zero extension and reduced values -/

theorem zero_extend32_wordArray (x : List Nat) (hx : WordArray 32 8 x) :
    WordArray 32 16 (zero_extend 32 x) := by
  refine ⟨by simp [zero_extend, hx.1, N], ?_⟩
  intro a ha
  simp only [zero_extend, List.mem_append, List.mem_replicate] at ha
  rcases ha with ha | ⟨-, rfl⟩
  · exact hx.2 a ha
  · exact Nat.pow_pos (by decide)

theorem limbsVal_zero_extend (w : Nat) (x : List Nat) :
    limbsVal w (zero_extend w x) = limbsVal w x := by
  rw [zero_extend, limbsVal_append, limbsVal_replicate_zero, Nat.mul_zero, Nat.add_zero]

/-- On a reduced value `redc` is the identity, as limb arrays. -/
theorem redc32_zero_extend (x : List Nat) (hx : WordArray 32 8 x)
    (hlt : limbsVal 32 x < Params.P) : redc 32 (zero_extend 32 x) = x := by
  obtain ⟨r1, r2⟩ := redc32_spec (zero_extend 32 x) (zero_extend32_wordArray x hx)
  rw [limbsVal_zero_extend, Nat.mod_eq_of_lt hlt] at r2
  exact limbsVal_inj 32 _ _ (by rw [r1.1, hx.1]) r1.2 hx.2 r2

theorem zero_pow_mod (n p : Nat) (hn : 0 < n) : 0 ^ n % p = 0 := by
  rw [Nat.zero_pow hn, Nat.zero_mod]

theorem final_carry32_eq (s : SolinasAccum) (h0 : 0 ≤ s.m_S) (h1 : s.m_S ≤ 13) :
    (s.final_carry 32 0).1.m_S = s.m_S ∧ ((s.final_carry 32 0).2 : Int) = s.m_S := by
  simp only [SolinasAccum.final_carry, add_zero]
  have a1 : -2 ^ 63 ≤ s.m_S := by omega
  have a2 : s.m_S < 2 ^ 63 := by omega
  have a3 : s.m_S < 2 ^ 32 := by omega
  rw [wrapInt64_eq_self _ a1 a2, Int.emod_eq_of_lt h0 a3]
  exact ⟨rfl, Int.toNat_of_nonneg h0⟩

/-! ## No `int64_t` overflow -/

theorem accum_exact_eq (w : Nat) (s : SolinasAccum) (v : Int) (h1 : -2 ^ 63 ≤ s.m_S + v)
    (h2 : s.m_S + v < 2 ^ 63) : s.accum_exact w v = s.accum w v := by
  unfold SolinasAccum.accum_exact SolinasAccum.accum
  rw [wrapInt64_eq_self _ h1 h2]

theorem accum_exact_m_S (w : Nat) (s : SolinasAccum) (v : Int) :
    (s.accum_exact w v).m_S = (s.m_S + v) / 2 ^ 32 := rfl

/-- With a small carry and small partial sums, every running value stays far inside the
`int64_t` range, the wrap never acts, and the carry stays small. -/
theorem running_values_spec (w : Nat) : ∀ (ss : List Int) (s : SolinasAccum),
    -64 ≤ s.m_S → s.m_S ≤ 64 → (∀ v ∈ ss, -2 ^ 35 ≤ v ∧ v < 2 ^ 36) →
    (∀ t ∈ running_values w s ss, -2 ^ 37 < t ∧ t < 2 ^ 37) ∧
    ss.foldl (SolinasAccum.accum_exact w) s = ss.foldl (SolinasAccum.accum w) s ∧
    -64 ≤ (ss.foldl (SolinasAccum.accum_exact w) s).m_S ∧
    (ss.foldl (SolinasAccum.accum_exact w) s).m_S ≤ 64
  | [], s, h1, h2, _ => by
    refine ⟨?_, rfl, h1, h2⟩
    intro t ht
    simp [running_values] at ht
  | v :: ss, s, h1, h2, hv => by
    obtain ⟨hv1, hv2⟩ := hv v (List.mem_cons_self _ _)
    have b1 : -2 ^ 37 < s.m_S + v := by omega
    have b2 : s.m_S + v < 2 ^ 37 := by omega
    have e := accum_exact_eq w s v (by omega) (by omega)
    have c1 : -64 ≤ (s.accum_exact w v).m_S := by rw [accum_exact_m_S]; omega
    have c2 : (s.accum_exact w v).m_S ≤ 64 := by rw [accum_exact_m_S]; omega
    obtain ⟨i1, i2, i3, i4⟩ := running_values_spec w ss (s.accum_exact w v) c1 c2
      (fun a ha => hv a (List.mem_cons_of_mem _ ha))
    refine ⟨?_, ?_, i3, i4⟩
    · intro t ht
      simp only [running_values, List.mem_cons] at ht
      rcases ht with rfl | ht
      · exact ⟨b1, b2⟩
      · exact i1 t ht
    · simp only [List.foldl_cons]
      rw [i2, e]

theorem redc_sums_exact32_unfold
    (x0 x1 x2 x3 x4 x5 x6 x7 x8 x9 x10 x11 x12 x13 x14 x15 : Nat)
    (h0 : x0 < 2 ^ 32) (h1 : x1 < 2 ^ 32) (h2 : x2 < 2 ^ 32) (h3 : x3 < 2 ^ 32)
    (h4 : x4 < 2 ^ 32) (h5 : x5 < 2 ^ 32) (h6 : x6 < 2 ^ 32) (h7 : x7 < 2 ^ 32)
    (h8 : x8 < 2 ^ 32) (h9 : x9 < 2 ^ 32) (h10 : x10 < 2 ^ 32) (h11 : x11 < 2 ^ 32)
    (h12 : x12 < 2 ^ 32) (h13 : x13 < 2 ^ 32) (h14 : x14 < 2 ^ 32) (h15 : x15 < 2 ^ 32) :
    redc_sums_exact 32
        [x0, x1, x2, x3, x4, x5, x6, x7, x8, x9, x10, x11, x12, x13, x14, x15] =
      [(x0 : Int) + x8 + x9 + x10 + x11 + x12 + 2 * (x13 + x14 + x15),
       (x1 : Int) + x9 + x10 + x11 + x12 + x13 + 2 * (x14 + x15),
       (x2 : Int) - (x8 + x9 + x13 + x14),
       (x3 : Int) + x8 + x11 + x12 + 2 * x13 + x14 + x15,
       (x4 : Int) + x9 + x12 + x13 + 2 * x14 + x15,
       (x5 : Int) + x10 + x13 + x14 + 2 * x15,
       (x6 : Int) + x11 + x14 + x15,
       (x7 : Int) + x8 + x9 + x10 + x11 + 2 * (x12 + x13 + x14 + x15) + x15] := by
  have e : redc_sums_exact 32 [x0, x1, x2, x3, x4, x5, x6, x7, x8, x9, x10, x11, x12, x13,
      x14, x15] =
      [((x0 % 2 ^ 32 : Nat) : Int) + (x8 % 2 ^ 32 : Nat) + (x9 % 2 ^ 32 : Nat)
          + (x10 % 2 ^ 32 : Nat) + (x11 % 2 ^ 32 : Nat) + (x12 % 2 ^ 32 : Nat)
          + 2 * ((x13 % 2 ^ 32 : Nat) + (x14 % 2 ^ 32 : Nat) + (x15 % 2 ^ 32 : Nat)),
       ((x1 % 2 ^ 32 : Nat) : Int) + (x9 % 2 ^ 32 : Nat) + (x10 % 2 ^ 32 : Nat)
          + (x11 % 2 ^ 32 : Nat) + (x12 % 2 ^ 32 : Nat) + (x13 % 2 ^ 32 : Nat)
          + 2 * ((x14 % 2 ^ 32 : Nat) + (x15 % 2 ^ 32 : Nat)),
       ((x2 % 2 ^ 32 : Nat) : Int) - ((x8 % 2 ^ 32 : Nat) + (x9 % 2 ^ 32 : Nat)
          + (x13 % 2 ^ 32 : Nat) + (x14 % 2 ^ 32 : Nat)),
       ((x3 % 2 ^ 32 : Nat) : Int) + (x8 % 2 ^ 32 : Nat) + (x11 % 2 ^ 32 : Nat)
          + (x12 % 2 ^ 32 : Nat) + 2 * (x13 % 2 ^ 32 : Nat) + (x14 % 2 ^ 32 : Nat)
          + (x15 % 2 ^ 32 : Nat),
       ((x4 % 2 ^ 32 : Nat) : Int) + (x9 % 2 ^ 32 : Nat) + (x12 % 2 ^ 32 : Nat)
          + (x13 % 2 ^ 32 : Nat) + 2 * (x14 % 2 ^ 32 : Nat) + (x15 % 2 ^ 32 : Nat),
       ((x5 % 2 ^ 32 : Nat) : Int) + (x10 % 2 ^ 32 : Nat) + (x13 % 2 ^ 32 : Nat)
          + (x14 % 2 ^ 32 : Nat) + 2 * (x15 % 2 ^ 32 : Nat),
       ((x6 % 2 ^ 32 : Nat) : Int) + (x11 % 2 ^ 32 : Nat) + (x14 % 2 ^ 32 : Nat)
          + (x15 % 2 ^ 32 : Nat),
       ((x7 % 2 ^ 32 : Nat) : Int) + (x8 % 2 ^ 32 : Nat) + (x9 % 2 ^ 32 : Nat)
          + (x10 % 2 ^ 32 : Nat) + (x11 % 2 ^ 32 : Nat)
          + 2 * ((x12 % 2 ^ 32 : Nat) + (x13 % 2 ^ 32 : Nat) + (x14 % 2 ^ 32 : Nat)
            + (x15 % 2 ^ 32 : Nat)) + (x15 % 2 ^ 32 : Nat)] := rfl
  rw [e]
  simp only [Nat.mod_eq_of_lt h0, Nat.mod_eq_of_lt h1, Nat.mod_eq_of_lt h2,
    Nat.mod_eq_of_lt h3, Nat.mod_eq_of_lt h4, Nat.mod_eq_of_lt h5, Nat.mod_eq_of_lt h6,
    Nat.mod_eq_of_lt h7, Nat.mod_eq_of_lt h8, Nat.mod_eq_of_lt h9, Nat.mod_eq_of_lt h10,
    Nat.mod_eq_of_lt h11, Nat.mod_eq_of_lt h12, Nat.mod_eq_of_lt h13,
    Nat.mod_eq_of_lt h14, Nat.mod_eq_of_lt h15]

set_option maxRecDepth 4000 in
/-- The unwrapped partial sums of a well-formed 32-bit input: equal to the wrapped ones,
and each in `[-2^35, 2^36)`. -/
theorem redc_sums_exact32_facts (z : List Nat) (hz : WordArray 32 16 z) :
    redc_sums 32 z = redc_sums_exact 32 z ∧
    (∀ v ∈ redc_sums_exact 32 z, -2 ^ 35 ≤ v ∧ v < 2 ^ 36) := by
  obtain ⟨hl, hb⟩ := hz
  match z, hl, hb with
  | [x0, x1, x2, x3, x4, x5, x6, x7, x8, x9, x10, x11, x12, x13, x14, x15], _, hb =>
    have h0 : x0 < 2 ^ 32 := hb x0 (by simp)
    have h1 : x1 < 2 ^ 32 := hb x1 (by simp)
    have h2 : x2 < 2 ^ 32 := hb x2 (by simp)
    have h3 : x3 < 2 ^ 32 := hb x3 (by simp)
    have h4 : x4 < 2 ^ 32 := hb x4 (by simp)
    have h5 : x5 < 2 ^ 32 := hb x5 (by simp)
    have h6 : x6 < 2 ^ 32 := hb x6 (by simp)
    have h7 : x7 < 2 ^ 32 := hb x7 (by simp)
    have h8 : x8 < 2 ^ 32 := hb x8 (by simp)
    have h9 : x9 < 2 ^ 32 := hb x9 (by simp)
    have h10 : x10 < 2 ^ 32 := hb x10 (by simp)
    have h11 : x11 < 2 ^ 32 := hb x11 (by simp)
    have h12 : x12 < 2 ^ 32 := hb x12 (by simp)
    have h13 : x13 < 2 ^ 32 := hb x13 (by simp)
    have h14 : x14 < 2 ^ 32 := hb x14 (by simp)
    have h15 : x15 < 2 ^ 32 := hb x15 (by simp)
    clear hb
    rw [redc_sums32_unfold x0 x1 x2 x3 x4 x5 x6 x7 x8 x9 x10 x11 x12 x13 x14 x15
      h0 h1 h2 h3 h4 h5 h6 h7 h8 h9 h10 h11 h12 h13 h14 h15,
      redc_sums_exact32_unfold x0 x1 x2 x3 x4 x5 x6 x7 x8 x9 x10 x11 x12 x13 x14 x15
      h0 h1 h2 h3 h4 h5 h6 h7 h8 h9 h10 h11 h12 h13 h14 h15]
    refine ⟨rfl, ?_⟩
    intro v hv
    simp only [List.mem_cons, List.mem_singleton, List.not_mem_nil, or_false] at hv
    rcases hv with rfl | rfl | rfl | rfl | rfl | rfl | rfl | rfl <;>
      constructor <;> omega

theorem redc_exact_eq_phases (w : Nat) (z : List Nat) :
    redc_exact w z = redc_finish w (redc_accum_exact w (redc_sums_exact w z)).m_r
      ((redc_accum_exact w (redc_sums_exact w z)).final_carry_exact w 0).2 := rfl

theorem final_carry_exact_eq (w : Nat) (s : SolinasAccum) (h1 : -64 ≤ s.m_S)
    (h2 : s.m_S ≤ 64) : s.final_carry_exact w 0 = s.final_carry w 0 := by
  unfold SolinasAccum.final_carry_exact SolinasAccum.final_carry
  have a1 : -2 ^ 63 ≤ s.m_S + 0 := by omega
  have a2 : s.m_S + 0 < 2 ^ 63 := by omega
  rw [wrapInt64_eq_self _ a1 a2]

/-! ## `sm2_mul_mod_256`, 64-bit words, and the checked variant -/

theorem P64_eq : P 64 = [0xFFFFFFFFFFFFFFFF, 0xFFFFFFFF00000000, 0xFFFFFFFFFFFFFFFF,
    0xFFFFFFFEFFFFFFFF] := by decide

theorem limbsVal_P64 : limbsVal 64 (P 64) = Params.P := by decide

theorem sm2_mul_mod_256_64 (i : Nat) (hi : i ≤ 2 ^ 32 - 2) :
    sm2_mul_mod_256 64 i = [0xFFFFFFFFFFFFFFFF - i, 0xFFFFFFFF00000000 - i * 2 ^ 32 + i,
      0xFFFFFFFFFFFFFFFF, 0xFFFFFFFEFFFFFFFF - i * 2 ^ 32] := by
  unfold sm2_mul_mod_256
  rw [P64_eq]
  simp only [show ¬ (64 = 32) by decide, if_false, List.set, List.getD, List.get?,
    Option.getD, wsub, wadd, Nat.shiftLeft_eq]
  norm_num at hi ⊢
  refine ⟨?_, ?_, ?_⟩ <;> omega

theorem limbsVal_sm2_mul_mod_256_64 (i : Nat) (hi : i ≤ 2 ^ 32 - 2) :
    limbsVal 64 (sm2_mul_mod_256 64 i) + i * (2 ^ 256 - Params.P) = Params.P := by
  rw [sm2_mul_mod_256_64 i hi]
  simp only [limbsVal, Params.P]
  norm_num at hi ⊢
  omega

theorem sm2_mul_mod_256_64_wordArray (i : Nat) (hi : i ≤ 2 ^ 32 - 2) :
    WordArray 64 4 (sm2_mul_mod_256 64 i) := by
  rw [sm2_mul_mod_256_64 i hi]
  refine ⟨rfl, ?_⟩
  intro a ha
  simp only [List.mem_cons, List.mem_singleton, List.not_mem_nil, or_false] at ha
  norm_num at hi ⊢
  omega

theorem sm2_mul_mod_256_checked_32 (i : Nat) (hi : i ≤ 2 ^ 32 - 2) :
    sm2_mul_mod_256_checked 32 i = some (sm2_mul_mod_256 32 i) := by
  rw [sm2_mul_mod_256_32 i hi]
  unfold sm2_mul_mod_256_checked
  rw [P32_eq]
  have h1 : i ≤ 4294967294 := by norm_num at hi; exact hi
  have h2 : i ≤ 4294967295 := by omega
  have h3 : 0 + i < 2 ^ 32 := by norm_num; omega
  simp only [if_true, Option.bind_eq_bind, Option.pure_def]
  have e7 : wsub_checked 4294967294 i = some (4294967294 - i) := if_pos h1
  have e3 : wsub_checked 4294967295 i = some (4294967295 - i) := if_pos h2
  have e2 : wadd_checked 32 0 i = some i := by
    unfold wadd_checked; rw [if_pos h3, Nat.zero_add]
  simp only [List.getD_cons_zero, List.getD_cons_succ, List.set_cons_zero, List.set_cons_succ,
    e7, e3, e2, Option.some_bind]

theorem sm2_mul_mod_256_checked_64 (i : Nat) (hi : i ≤ 2 ^ 32 - 2) :
    sm2_mul_mod_256_checked 64 i = some (sm2_mul_mod_256 64 i) := by
  rw [sm2_mul_mod_256_64 i hi]
  unfold sm2_mul_mod_256_checked
  rw [P64_eq]
  have hi1 : i ≤ 4294967294 := by norm_num at hi; exact hi
  have h0 : i * 2 ^ 32 < 2 ^ 64 := by norm_num; omega
  have h1 : i * 2 ^ 32 ≤ 18446744069414584319 := by norm_num; omega
  have h2 : i * 2 ^ 32 ≤ 18446744069414584320 := by norm_num; omega
  have h3 : 18446744069414584320 - i * 2 ^ 32 + i < 2 ^ 64 := by norm_num; omega
  have h4 : i ≤ 18446744073709551615 := by omega
  have es : (if i * 2 ^ 32 < 2 ^ 64 then some (i * 2 ^ 32) else none) = some (i * 2 ^ 32) :=
    if_pos h0
  have e3 : wsub_checked 18446744069414584319 (i * 2 ^ 32) =
      some (18446744069414584319 - i * 2 ^ 32) := if_pos h1
  have e1 : wsub_checked 18446744069414584320 (i * 2 ^ 32) =
      some (18446744069414584320 - i * 2 ^ 32) := if_pos h2
  have e1b : wadd_checked 64 (18446744069414584320 - i * 2 ^ 32) i =
      some (18446744069414584320 - i * 2 ^ 32 + i) := if_pos h3
  have e0 : wsub_checked 18446744073709551615 i = some (18446744073709551615 - i) :=
    if_pos h4
  simp only [show ¬ (64 = 32) by decide, if_false, Option.bind_eq_bind, Option.pure_def,
    Nat.shiftLeft_eq, es, Option.some_bind, List.getD_cons_zero, List.getD_cons_succ,
    List.set_cons_zero, List.set_cons_succ, e3, e1, e1b, e0]
  rw [if_pos h0]

/-- The arithmetic of `sm2_mul_mod_256`: a value `v` with `v + i * (2^256 - P) = P` is
`((i + 1) * P) mod 2^256`. -/
theorem mul_mod_256_arith (v i : Nat) (hi : i ≤ 2 ^ 32 - 2)
    (h : v + i * (2 ^ 256 - Params.P) = Params.P) :
    i * (2 ^ 256 - Params.P) ≤ Params.P ∧ v = Params.P - i * (2 ^ 256 - Params.P) ∧
    Params.P - i * (2 ^ 256 - Params.P) = (i + 1) * Params.P % 2 ^ 256 := by
  simp only [Params.P] at h ⊢
  norm_num at hi h ⊢
  omega

/-! ## The accumulator, 64-bit words -/

theorem or_shift32 (a b : Nat) (ha : a < 2 ^ 32) (hb : b < 2 ^ 32) :
    a ||| ((b <<< 32) % 2 ^ 64) = a + 2 ^ 32 * b := by
  have h1 : b <<< 32 = 2 ^ 32 * b := by rw [Nat.shiftLeft_eq, Nat.mul_comm]
  have h2 : 2 ^ 32 * b < 2 ^ 64 := by norm_num at hb ⊢; omega
  rw [h1, Nat.mod_eq_of_lt h2, Nat.or_comm, ← Nat.mul_add_lt_is_or ha, Nat.add_comm]

theorem zero_or_shift0 (b : Nat) (hb : b < 2 ^ 32) : 0 ||| ((b <<< 0) % 2 ^ 64) = b := by
  have h2 : b < 2 ^ 64 := by norm_num at hb ⊢; omega
  rw [Nat.shiftLeft_zero, Nat.mod_eq_of_lt h2, Nat.zero_or]

theorem getD_append_self (ws : List Nat) (x : Nat) (zs : List Nat) :
    (ws ++ x :: zs).getD ws.length 0 = x := by
  induction ws with
  | nil => rfl
  | cons w ws ih => simpa using ih

theorem set_append_self (ws : List Nat) (x y : Nat) (zs : List Nat) :
    (ws ++ x :: zs).set ws.length y = ws ++ y :: zs := by
  induction ws with
  | nil => rfl
  | cons w ws ih => simp [ih]

theorem emod32_toNat_lt (t : Int) : (t % 2 ^ 32).toNat < 2 ^ 32 := by
  have hnn : (0 : Int) ≤ t % 2 ^ 32 := Int.emod_nonneg _ (by norm_num)
  have hlt : t % 2 ^ 32 < 2 ^ 32 := Int.emod_lt_of_pos _ (by norm_num)
  omega

theorem accumInv64_init : AccumInv64 (SolinasAccum.init (List.replicate 4 0)) 0 0 :=
  ⟨[], rfl, by simp, rfl, rfl, by simp [limbsVal, SolinasAccum.init],
    by simp [SolinasAccum.init], by simp [SolinasAccum.init]⟩

/-- Two `accum` calls fill one 64-bit word. -/
theorem accumInv64_step (s : SolinasAccum) (j : Nat) (T v1 v2 : Int)
    (h : AccumInv64 s j T) (hj : j < 4) (hv1 : -2 ^ 36 ≤ v1 ∧ v1 < 2 ^ 36)
    (hv2 : -2 ^ 36 ≤ v2 ∧ v2 < 2 ^ 36) :
    AccumInv64 ((s.accum 64 v1).accum 64 v2) (j + 1)
      (T + 2 ^ (64 * j) * (v1 + 2 ^ 32 * v2)) := by
  obtain ⟨ws, hlen, hws, hr, hidx, hT, hS1, hS2⟩ := h
  have hw1 : wrapInt64 (s.m_S + v1) = s.m_S + v1 :=
    wrapInt64_eq_self _ (by linarith [hv1.1]) (by linarith [hv1.2])
  have hc1a : -2 ^ 36 ≤ (s.m_S + v1) / 2 ^ 32 := by omega
  have hc1b : (s.m_S + v1) / 2 ^ 32 < 2 ^ 36 := by omega
  have hw2 : wrapInt64 ((s.m_S + v1) / 2 ^ 32 + v2) = (s.m_S + v1) / 2 ^ 32 + v2 :=
    wrapInt64_eq_self _ (by linarith [hv2.1]) (by linarith [hv2.2])
  have hr1 := emod32_toNat_lt (s.m_S + v1)
  have hr2 := emod32_toNat_lt ((s.m_S + v1) / 2 ^ 32 + v2)
  have hn1 : (0 : Int) ≤ (s.m_S + v1) % 2 ^ 32 := Int.emod_nonneg _ (by norm_num)
  have hn2 : (0 : Int) ≤ ((s.m_S + v1) / 2 ^ 32 + v2) % 2 ^ 32 :=
    Int.emod_nonneg _ (by norm_num)
  have hd1 : (s.m_S + v1) % 2 ^ 32 + 2 ^ 32 * ((s.m_S + v1) / 2 ^ 32) = s.m_S + v1 :=
    Int.emod_add_ediv _ _
  have hd2 : ((s.m_S + v1) / 2 ^ 32 + v2) % 2 ^ 32 +
      2 ^ 32 * (((s.m_S + v1) / 2 ^ 32 + v2) / 2 ^ 32) = (s.m_S + v1) / 2 ^ 32 + v2 :=
    Int.emod_add_ediv _ _
  have h4 : 4 - j = (4 - (j + 1)) + 1 := by omega
  have e1 : (2 * j) / 2 = j := by omega
  have e2 : (2 * j) % 2 = 0 := by omega
  have e3 : (2 * j + 1) / 2 = j := by omega
  have e4 : (2 * j + 1) % 2 = 1 := by omega
  have hmr : ((s.accum 64 v1).accum 64 v2).m_r =
      ws ++ (((s.m_S + v1) % 2 ^ 32).toNat +
        2 ^ 32 * (((s.m_S + v1) / 2 ^ 32 + v2) % 2 ^ 32).toNat) ::
        List.replicate (4 - (j + 1)) 0 := by
    simp only [SolinasAccum.accum, hw1, hw2, show ¬ (64 = 32) by decide, if_false, hr, hidx,
      e1, e2, e3, e4, h4, List.replicate_succ, Nat.mul_zero, Nat.mul_one]
    rw [← hlen, getD_append_self, set_append_self, getD_append_self, set_append_self,
      zero_or_shift0 _ hr1, or_shift32 _ _ hr1 hr2]
  refine ⟨ws ++ [((s.m_S + v1) % 2 ^ 32).toNat +
    2 ^ 32 * (((s.m_S + v1) / 2 ^ 32 + v2) % 2 ^ 32).toNat], by simp [hlen], ?_, ?_, ?_, ?_,
    ?_, ?_⟩
  · intro a ha
    simp only [List.mem_append, List.mem_singleton] at ha
    rcases ha with ha | rfl
    · exact hws a ha
    · norm_num at hr1 hr2 ⊢
      omega
  · rw [hmr]; simp
  · simp only [SolinasAccum.accum, hidx]; omega
  · simp only [SolinasAccum.accum, hw1, hw2]
    rw [limbsVal_append]
    simp only [limbsVal, hlen, Nat.mul_zero, Nat.add_zero]
    simp only [Nat.cast_add, Nat.cast_mul, Nat.cast_pow, Nat.cast_ofNat]
    rw [Int.toNat_of_nonneg hn1, Int.toNat_of_nonneg hn2, ← hT, Nat.mul_succ, pow_add]
    linear_combination (2 ^ (64 * j) : Int) * hd1 + (2 ^ (64 * j) * 2 ^ 32 : Int) * hd2
  · simp only [SolinasAccum.accum, hw1, hw2]
    omega
  · simp only [SolinasAccum.accum, hw1, hw2]
    omega

theorem accumInv64_foldl : ∀ (ss : List Int) (s : SolinasAccum) (j : Nat) (T : Int),
    AccumInv64 s j T → 2 * j + ss.length ≤ 8 → ss.length % 2 = 0 →
    (∀ v ∈ ss, -2 ^ 36 ≤ v ∧ v < 2 ^ 36) →
    AccumInv64 (ss.foldl (SolinasAccum.accum 64) s) (j + ss.length / 2)
      (T + 2 ^ (64 * j) * sumsVal ss)
  | [], s, j, T, h, _, _, _ => by simpa [sumsVal] using h
  | [_], _, _, _, _, _, he, _ => by simp at he
  | v1 :: v2 :: ss, s, j, T, h, hk, he, hv => by
    simp only [List.length_cons] at hk he
    have hj : j < 4 := by omega
    have h1 := accumInv64_step s j T v1 v2 h hj (hv v1 (by simp)) (hv v2 (by simp))
    have h2 := accumInv64_foldl ss ((s.accum 64 v1).accum 64 v2) (j + 1) _ h1
      (by omega) (by omega) (fun a ha => hv a (by simp [ha]))
    have e1 : j + (v1 :: v2 :: ss).length / 2 = j + 1 + ss.length / 2 := by
      simp only [List.length_cons]; omega
    have e2 : T + 2 ^ (64 * j) * sumsVal (v1 :: v2 :: ss) =
        T + 2 ^ (64 * j) * (v1 + 2 ^ 32 * v2) + 2 ^ (64 * (j + 1)) * sumsVal ss := by
      simp only [sumsVal, Nat.mul_succ, pow_add]; ring
    rw [e1, e2]
    exact h2

/-! ## `redc`, 64-bit words -/

theorem get_uint32_limbs32 (w : Nat) (z : List Nat) (i : Nat) (hi : i < 16) :
    get_uint32 32 (limbs32 w z) i = get_uint32 w z i := by
  have h : (limbs32 w z).getD i 0 = get_uint32 w z i := by
    unfold limbs32
    interval_cases i <;> rfl
  have hlt : get_uint32 w z i < 2 ^ 32 := by
    unfold get_uint32
    split <;> exact Nat.mod_lt _ (by norm_num)
  simp only [get_uint32, if_true] at h ⊢
  rw [h]
  exact Nat.mod_eq_of_lt hlt

theorem redc_sums_limbs32 (w : Nat) (z : List Nat) :
    redc_sums 32 (limbs32 w z) = redc_sums w z := by
  unfold redc_sums
  rw [get_uint32_limbs32 w z 0 (by decide), get_uint32_limbs32 w z 1 (by decide),
    get_uint32_limbs32 w z 2 (by decide), get_uint32_limbs32 w z 3 (by decide),
    get_uint32_limbs32 w z 4 (by decide), get_uint32_limbs32 w z 5 (by decide),
    get_uint32_limbs32 w z 6 (by decide), get_uint32_limbs32 w z 7 (by decide),
    get_uint32_limbs32 w z 8 (by decide), get_uint32_limbs32 w z 9 (by decide),
    get_uint32_limbs32 w z 10 (by decide), get_uint32_limbs32 w z 11 (by decide),
    get_uint32_limbs32 w z 12 (by decide), get_uint32_limbs32 w z 13 (by decide),
    get_uint32_limbs32 w z 14 (by decide), get_uint32_limbs32 w z 15 (by decide)]

theorem limbs32_wordArray (w : Nat) (z : List Nat) : WordArray 32 16 (limbs32 w z) := by
  refine ⟨by simp [limbs32], ?_⟩
  intro a ha
  simp only [limbs32, List.mem_map] at ha
  obtain ⟨i, -, rfl⟩ := ha
  unfold get_uint32
  split <;> exact Nat.mod_lt _ (by norm_num)

theorem split_word (x : Nat) (hx : x < 2 ^ 64) :
    (x >>> 0) % 2 ^ 32 + 2 ^ 32 * ((x >>> 32) % 2 ^ 32) = x := by
  rw [Nat.shiftRight_zero, Nat.shiftRight_eq_div_pow]
  norm_num at hx ⊢
  omega

theorem limbsVal_limbs32_64 (z : List Nat) (hz : WordArray 64 8 z) :
    limbsVal 32 (limbs32 64 z) = limbsVal 64 z := by
  obtain ⟨hl, hb⟩ := hz
  match z, hl, hb with
  | [x0, x1, x2, x3, x4, x5, x6, x7], _, hb =>
    have e : limbs32 64 [x0, x1, x2, x3, x4, x5, x6, x7] =
      [(x0 >>> 0) % 2 ^ 32, (x0 >>> 32) % 2 ^ 32, (x1 >>> 0) % 2 ^ 32, (x1 >>> 32) % 2 ^ 32,
       (x2 >>> 0) % 2 ^ 32, (x2 >>> 32) % 2 ^ 32, (x3 >>> 0) % 2 ^ 32, (x3 >>> 32) % 2 ^ 32,
       (x4 >>> 0) % 2 ^ 32, (x4 >>> 32) % 2 ^ 32, (x5 >>> 0) % 2 ^ 32, (x5 >>> 32) % 2 ^ 32,
       (x6 >>> 0) % 2 ^ 32, (x6 >>> 32) % 2 ^ 32, (x7 >>> 0) % 2 ^ 32, (x7 >>> 32) % 2 ^ 32] :=
      rfl
    have s0 := split_word x0 (hb x0 (by simp))
    have s1 := split_word x1 (hb x1 (by simp))
    have s2 := split_word x2 (hb x2 (by simp))
    have s3 := split_word x3 (hb x3 (by simp))
    have s4 := split_word x4 (hb x4 (by simp))
    have s5 := split_word x5 (hb x5 (by simp))
    have s6 := split_word x6 (hb x6 (by simp))
    have s7 := split_word x7 (hb x7 (by simp))
    rw [e]
    simp only [limbsVal]
    generalize (x0 >>> 0) % 2 ^ 32 = a0 at s0 ⊢
    generalize (x0 >>> 32) % 2 ^ 32 = b0 at s0 ⊢
    generalize (x1 >>> 0) % 2 ^ 32 = a1 at s1 ⊢
    generalize (x1 >>> 32) % 2 ^ 32 = b1 at s1 ⊢
    generalize (x2 >>> 0) % 2 ^ 32 = a2 at s2 ⊢
    generalize (x2 >>> 32) % 2 ^ 32 = b2 at s2 ⊢
    generalize (x3 >>> 0) % 2 ^ 32 = a3 at s3 ⊢
    generalize (x3 >>> 32) % 2 ^ 32 = b3 at s3 ⊢
    generalize (x4 >>> 0) % 2 ^ 32 = a4 at s4 ⊢
    generalize (x4 >>> 32) % 2 ^ 32 = b4 at s4 ⊢
    generalize (x5 >>> 0) % 2 ^ 32 = a5 at s5 ⊢
    generalize (x5 >>> 32) % 2 ^ 32 = b5 at s5 ⊢
    generalize (x6 >>> 0) % 2 ^ 32 = a6 at s6 ⊢
    generalize (x6 >>> 32) % 2 ^ 32 = b6 at s6 ⊢
    generalize (x7 >>> 0) % 2 ^ 32 = a7 at s7 ⊢
    generalize (x7 >>> 32) % 2 ^ 32 = b7 at s7 ⊢
    subst s0 s1 s2 s3 s4 s5 s6 s7
    ring

theorem redc_finish64_spec (rs : List Nat) (S : Nat) (hrs : WordArray 64 4 rs)
    (hS : S ≤ 13) :
    WordArray 64 4 (redc_finish 64 rs S) ∧ limbsVal 64 (redc_finish 64 rs S) < Params.P ∧
    ∃ k : Nat, limbsVal 64 (redc_finish 64 rs S) + k * Params.P =
      limbsVal 64 rs + S * 2 ^ 256 := by
  have hS2 : S ≤ 2 ^ 32 - 2 := by norm_num; omega
  have hcv := limbsVal_sm2_mul_mod_256_64 S hS2
  have hcw := sm2_mul_mod_256_64_wordArray S hS2
  obtain ⟨s1, s2, s3, s4⟩ := bigint_sub2_loop_spec 64 rs (sm2_mul_mod_256 64 S) 0
    (by rw [hrs.1, hcw.1]) hrs.2 hcw.2 (by decide)
  have hr := limbsVal_lt 64 rs hrs.2
  have ho := limbsVal_lt 64 _ s2
  rw [s1] at ho
  rw [hrs.1] at s1 s4 hr ho
  have hPw : WordArray 64 4 (P 64) := by decide
  unfold redc_finish bigint_cnd_add bigint_sub2
  generalize bigint_sub2_loop 64 rs (sm2_mul_mod_256 64 S) 0 = sub at s1 s2 s3 s4 ho ⊢
  obtain ⟨out, b⟩ := sub
  simp only at s1 s2 s3 s4 ho ⊢
  have hb : b = 0 ∨ b = 1 := by omega
  rcases hb with rfl | rfl
  · obtain ⟨c1, c2, c3, c4⟩ := bigint_cnd_add_loop_spec 64 0 (by norm_num) out (P 64) 0
      (by rw [s1, hPw.1]) s2 (by decide)
    simp only [if_true]
    rw [map_and_zero] at c4
    have hq := limbsVal_lt 64 _ c2
    rw [c1] at hq
    rw [s1] at hq c4 c1
    generalize bigint_cnd_add_loop 64 0 out (P 64) 0 = res at c1 c2 c3 c4 hq ⊢
    refine ⟨⟨c1, c2⟩, ?_, S + 1, ?_⟩
    · simp only [Params.P] at hcv ⊢
      norm_num at hcv s4 hq c4 hr ho ⊢
      omega
    · simp only [Params.P] at hcv ⊢
      norm_num at hcv s4 hq c4 hr ho ⊢
      omega
  · obtain ⟨c1, c2, c3, c4⟩ := bigint_cnd_add_loop_spec 64 (2 ^ 64 - 1) (by norm_num) out
      (P 64) 0 (by rw [s1, hPw.1]) s2 (by decide)
    simp only [if_neg one_ne_zero]
    rw [map_and_ones 64 _ hPw.2, limbsVal_P64] at c4
    have hq := limbsVal_lt 64 _ c2
    rw [c1] at hq
    rw [s1] at hq c4 c1
    generalize bigint_cnd_add_loop 64 (2 ^ 64 - 1) out (P 64) 0 = res at c1 c2 c3 c4 hq ⊢
    refine ⟨⟨c1, c2⟩, ?_, S, ?_⟩
    · simp only [Params.P] at hcv c4 ⊢
      norm_num at hcv s4 hq c4 hr ho ⊢
      omega
    · simp only [Params.P] at hcv c4 ⊢
      norm_num at hcv s4 hq c4 hr ho ⊢
      omega

/-- The accumulation phase of `redc`, 64-bit words: four well-formed words `r` and a carry
`S` in `0..13` with `r + S * 2^256` the weighted total of the partial sums. -/
theorem redc_accum64_spec (z : List Nat) :
    WordArray 64 4 (redc_accum 64 (redc_sums 64 z)).m_r ∧
    0 ≤ (redc_accum 64 (redc_sums 64 z)).m_S ∧ (redc_accum 64 (redc_sums 64 z)).m_S ≤ 13 ∧
    (limbsVal 64 (redc_accum 64 (redc_sums 64 z)).m_r : Int) +
      (redc_accum 64 (redc_sums 64 z)).m_S * 2 ^ 256 = sumsVal (redc_sums 64 z) := by
  obtain ⟨hlen, hbd, hT0, hT1, -⟩ := redc_sums32_facts (limbs32 64 z) (limbs32_wordArray 64 z)
  rw [redc_sums_limbs32] at hlen hbd hT0 hT1
  have I := accumInv64_foldl (redc_sums 64 z) _ 0 0 accumInv64_init
    (by rw [hlen]) (by rw [hlen]) hbd
  rw [hlen] at I
  change AccumInv64 (redc_accum 64 (redc_sums 64 z)) 4 _ at I
  generalize redc_accum 64 (redc_sums 64 z) = sum at I ⊢
  generalize sumsVal (redc_sums 64 z) = T at I hT0 hT1 ⊢
  obtain ⟨ws, hl, hws, hr, hidx, hT, hS1, hS2⟩ := I
  simp only [Nat.sub_self, List.replicate_zero, List.append_nil] at hr
  have hrv := limbsVal_lt 64 ws hws
  rw [hl] at hrv
  rw [hr]
  norm_num at hT hrv hT1 ⊢
  refine ⟨⟨hl, hws⟩, ?_, ?_, ?_⟩ <;> omega

theorem redc64_spec (z : List Nat) (hz : WordArray 64 8 z) :
    WordArray 64 4 (redc 64 z) ∧ limbsVal 64 (redc 64 z) = limbsVal 64 z % Params.P := by
  obtain ⟨-, -, -, -, Q, hQ⟩ := redc_sums32_facts (limbs32 64 z) (limbs32_wordArray 64 z)
  rw [redc_sums_limbs32, limbsVal_limbs32_64 z hz] at hQ
  obtain ⟨hw, hS0, hS1, hT⟩ := redc_accum64_spec z
  rw [redc_eq_phases]
  generalize redc_accum 64 (redc_sums 64 z) = sum at hw hS0 hS1 hT ⊢
  have hfc : (sum.final_carry 64 0).2 = sum.m_S.toNat := by
    simp only [SolinasAccum.final_carry, add_zero]
    have a1 : -2 ^ 63 ≤ sum.m_S := by omega
    have a2 : sum.m_S < 2 ^ 63 := by omega
    have a3 : sum.m_S < 2 ^ 64 := by omega
    rw [wrapInt64_eq_self _ a1 a2, Int.emod_eq_of_lt hS0 a3]
  rw [hfc]
  obtain ⟨f1, f2, k, f3⟩ := redc_finish64_spec sum.m_r sum.m_S.toNat hw (by omega)
  refine ⟨f1, ?_⟩
  exact redc_close _ _ _ k Q _ _ hS0 hQ hT f3 f2

/-! ## The claims -/

/-- C1. For every double-width input `z` given as sixteen 32-bit limbs, the integer denoted
by `redc z` is congruent to the integer denoted by `z` modulo `P`. -/
theorem redc_congr (z : List Nat) (hz : WordArray 32 16 z) :
    limbsVal 32 (redc 32 z) ≡ limbsVal 32 z [MOD Params.P] := by
  unfold Nat.ModEq
  rw [(redc32_spec z hz).2, Nat.mod_mod]

/-- Witness for C1 at the boundary input `2^512 - 1`, all sixteen limbs `0xFFFFFFFF`. -/
theorem redc_congr_witness :
    WordArray 32 16 (List.replicate 16 0xFFFFFFFF) ∧
    limbsVal 32 (redc 32 (List.replicate 16 0xFFFFFFFF)) ≡
      limbsVal 32 (List.replicate 16 0xFFFFFFFF) [MOD Params.P] :=
  ⟨by decide, redc_congr _ (by decide)⟩

/-- C2. For every double-width input `z` given as sixteen 32-bit limbs, `redc z` is an
array of eight 32-bit limbs denoting an integer in `[0, P)`. -/
theorem redc_reduced (z : List Nat) (hz : WordArray 32 16 z) :
    WordArray 32 8 (redc 32 z) ∧ limbsVal 32 (redc 32 z) < Params.P := by
  obtain ⟨h1, h2⟩ := redc32_spec z hz
  refine ⟨h1, ?_⟩
  rw [h2]
  exact Nat.mod_lt _ (by decide)

/-- Witness for C2 at the input `P` (zero-extended), which reduces to 0. -/
theorem redc_reduced_witness :
    WordArray 32 16 (toLimbs 32 16 Params.P) ∧
    WordArray 32 8 (redc 32 (toLimbs 32 16 Params.P)) ∧
    limbsVal 32 (redc 32 (toLimbs 32 16 Params.P)) < Params.P :=
  ⟨by decide, redc_reduced _ (by decide)⟩

/-- C3. `fe_invert2` returns the square of the inverse: for every field element `x` in
`[1, P)`, `x^2 * fe_invert2(x) ≡ 1 (mod P)`, and the result is itself a field element. -/
theorem fe_invert2_inverse_square (x : List Nat) (hx : WordArray 32 8 x)
    (hpos : 0 < limbsVal 32 x) (hlt : limbsVal 32 x < Params.P) :
    WordArray 32 8 (Curve.fe_invert2 32 x) ∧ limbsVal 32 (Curve.fe_invert2 32 x) < Params.P ∧
    limbsVal 32 x ^ 2 * limbsVal 32 (Curve.fe_invert2 32 x) % Params.P = 1 := by
  obtain ⟨h1, h2⟩ := fe_invert2_isPow x hx hlt
  have hp : Nat.Prime Params.P := prime_sm2_P
  refine ⟨h1, ?_, ?_⟩
  · rw [h2]; exact Nat.mod_lt _ hp.pos
  · rw [h2, Nat.mul_mod, Nat.mod_mod, ← Nat.mul_mod, ← pow_add]
    have e : 2 + (Params.P - 3) = Params.P - 1 := by decide
    rw [e]
    have hcop : Nat.Coprime (limbsVal 32 x) Params.P :=
      ((Nat.Prime.coprime_iff_not_dvd hp).2 (Nat.not_dvd_of_pos_of_lt hpos hlt)).symm
    have := Nat.ModEq.pow_totient hcop
    rw [Nat.totient_prime hp] at this
    rw [this]
    decide

/-- Witness for C3 at `x = 2`. -/
theorem fe_invert2_inverse_square_witness :
    WordArray 32 8 [2, 0, 0, 0, 0, 0, 0, 0] ∧ 0 < limbsVal 32 [2, 0, 0, 0, 0, 0, 0, 0] ∧
    limbsVal 32 [2, 0, 0, 0, 0, 0, 0, 0] < Params.P ∧
    WordArray 32 8 (Curve.fe_invert2 32 [2, 0, 0, 0, 0, 0, 0, 0]) ∧
    limbsVal 32 (Curve.fe_invert2 32 [2, 0, 0, 0, 0, 0, 0, 0]) < Params.P ∧
    limbsVal 32 [2, 0, 0, 0, 0, 0, 0, 0] ^ 2 *
      limbsVal 32 (Curve.fe_invert2 32 [2, 0, 0, 0, 0, 0, 0, 0]) % Params.P = 1 :=
  ⟨by decide, by decide, by decide,
    fe_invert2_inverse_square [2, 0, 0, 0, 0, 0, 0, 0] (by decide) (by decide) (by decide)⟩

set_option maxRecDepth 100000 in
/-- C4. At the failing input `i = 0`, the carry `redc` passes on the input 0, the array
returned by `sm2_mul_mod_256` is the array of `P` at both word widths and denotes `P`,
whereas `(0 * P) mod 2^256` is 0. -/
theorem sm2_mul_mod_256_not_i_times_P :
    ((redc_accum 32 (redc_sums 32 (List.replicate 16 0))).final_carry 32 0).2 = 0 ∧
    sm2_mul_mod_256 32 0 = P 32 ∧ sm2_mul_mod_256 64 0 = P 64 ∧
    limbsVal 32 (sm2_mul_mod_256 32 0) = Params.P ∧
    limbsVal 64 (sm2_mul_mod_256 64 0) = Params.P ∧
    0 * Params.P % 2 ^ 256 = 0 ∧
    limbsVal 32 (sm2_mul_mod_256 32 0) ≠ 0 * Params.P % 2 ^ 256 ∧
    limbsVal 64 (sm2_mul_mod_256 64 0) ≠ 0 * Params.P % 2 ^ 256 := by
  decide

/-- What the code does in place of the `(i * P) mod 2^256` of C4: for every multiplier
`i ≤ 2^32 - 2` the array returned by `sm2_mul_mod_256 i` denotes `((i + 1) * P) mod 2^256`;
`redc` subtracts exactly this array, taken at its final carry, from the accumulated result,
and for a well-formed input that carry is at most 13. -/
theorem sm2_mul_mod_256_value (i : Nat) (hi : i ≤ 2 ^ 32 - 2) :
    limbsVal 32 (sm2_mul_mod_256 32 i) = (i + 1) * Params.P % 2 ^ 256 ∧
    (∀ z : List Nat,
      redc 32 z =
        (bigint_cnd_add 32
          (bigint_sub2 32 (redc_accum 32 (redc_sums 32 z)).m_r
            (sm2_mul_mod_256 32 ((redc_accum 32 (redc_sums 32 z)).final_carry 32 0).2)).2
          (bigint_sub2 32 (redc_accum 32 (redc_sums 32 z)).m_r
            (sm2_mul_mod_256 32 ((redc_accum 32 (redc_sums 32 z)).final_carry 32 0).2)).1
          (P 32)).1) ∧
    (∀ z : List Nat, WordArray 32 16 z →
      ((redc_accum 32 (redc_sums 32 z)).final_carry 32 0).2 ≤ 13) := by
  refine ⟨?_, fun _ => rfl, ?_⟩
  · have h := limbsVal_sm2_mul_mod_256_32 i hi
    generalize limbsVal 32 (sm2_mul_mod_256 32 i) = v at h ⊢
    simp only [Params.P] at h ⊢
    norm_num at hi h ⊢
    omega
  · intro z hz
    obtain ⟨-, hS0, hS1, -⟩ := redc_accum32_spec z hz
    generalize redc_accum 32 (redc_sums 32 z) = sum at hS0 hS1 ⊢
    simp only [SolinasAccum.final_carry, add_zero]
    have a1 : -2 ^ 63 ≤ sum.m_S := by omega
    have a2 : sum.m_S < 2 ^ 63 := by omega
    have a3 : sum.m_S < 2 ^ 32 := by omega
    rw [wrapInt64_eq_self _ a1 a2, Int.emod_eq_of_lt hS0 a3]
    omega

/-- The value of `sm2_mul_mod_256` at `i = 13`, the largest carry `redc` produces. -/
theorem sm2_mul_mod_256_value_witness :
    13 ≤ 2 ^ 32 - 2 ∧ limbsVal 32 (sm2_mul_mod_256 32 13) = (13 + 1) * Params.P % 2 ^ 256 :=
  ⟨by decide, (sm2_mul_mod_256_value 13 (by decide)).1⟩

/-- C5. `one()` is the multiplicative identity in internal form: `from_rep (one())` denotes
1, and for every field element `x` in `[0, P)`, `redc` of the double-width product
`x * one()` (and of `one() * x`) is exactly `x`. -/
theorem one_mul_identity (x : List Nat) (hx : WordArray 32 8 x)
    (hlt : limbsVal 32 x < Params.P) :
    limbsVal 32 (from_rep (one 32)) = 1 ∧
    redc 32 (toLimbs 32 16 (limbsVal 32 x * limbsVal 32 (one 32))) = x ∧
    redc 32 (toLimbs 32 16 (limbsVal 32 (one 32) * limbsVal 32 x)) = x := by
  have h1 : limbsVal 32 (one 32) = 1 := by decide
  have hw : limbsVal 32 x < 2 ^ (32 * 16) := limbsVal_lt_of_le 32 8 16 x hx (by decide)
  have key : redc 32 (toLimbs 32 16 (limbsVal 32 x)) = x := by
    obtain ⟨r1, r2⟩ := redc32_spec (toLimbs 32 16 (limbsVal 32 x)) (toLimbs_wordArray 32 16 _)
    rw [limbsVal_toLimbs, Nat.mod_eq_of_lt hw, Nat.mod_eq_of_lt hlt] at r2
    exact limbsVal_inj 32 _ _ (by rw [r1.1, hx.1]) r1.2 hx.2 r2
  refine ⟨h1, ?_, ?_⟩
  · rw [h1, Nat.mul_one]; exact key
  · rw [h1, Nat.one_mul]; exact key

/-- Witness for C5 at `x = P - 1`, the largest field element. -/
theorem one_mul_identity_witness :
    WordArray 32 8 (toLimbs 32 8 (Params.P - 1)) ∧
    limbsVal 32 (toLimbs 32 8 (Params.P - 1)) < Params.P ∧
    redc 32 (toLimbs 32 16 (limbsVal 32 (toLimbs 32 8 (Params.P - 1)) * limbsVal 32 (one 32)))
      = toLimbs 32 8 (Params.P - 1) :=
  ⟨by decide, by decide, (one_mul_identity _ (by decide) (by decide)).2.1⟩

/-- C6. Representation round trip: `to_rep` and `from_rep` are both the identity, so
`from_rep (to_rep x) = x` and `to_rep (from_rep x) = x` for every limb array `x`. -/
theorem rep_round_trip (x : List Nat) :
    from_rep (to_rep x) = x ∧ to_rep (from_rep x) = x ∧ to_rep x = x ∧ from_rep x = x :=
  ⟨rfl, rfl, rfl, rfl⟩

/-- C7. The base point of `Params` lies on the curve of `Params`: `Gx < P`, `Gy < P` and
`Gy^2 ≡ Gx^3 + A * Gx + B (mod P)`. -/
theorem base_point_on_curve :
    Params.Gx < Params.P ∧ Params.Gy < Params.P ∧
    Params.Gy ^ 2 ≡ Params.Gx ^ 3 + Params.A * Params.Gx + Params.B [MOD Params.P] := by
  unfold Nat.ModEq
  decide

/-- C8. The modulus of `Params` is `2^256 - 2^224 - 2^96 + 2^64 - 1` and is prime. -/
theorem P_prime :
    Params.P = 2 ^ 256 - 2 ^ 224 - 2 ^ 96 + 2 ^ 64 - 1 ∧ Nat.Prime Params.P :=
  ⟨by decide, prime_sm2_P⟩

/-- C10. `wide_to_rep x = redc x` for every double-width input `x`, at either word width. -/
theorem wide_to_rep_eq_redc (w : Nat) (x : List Nat) : wide_to_rep w x = redc w x := rfl

/-- C11. The addition chain of `fe_invert2` computes exactly the exponent `P - 3`: for every
field element `x` in `[0, P)`, `fe_invert2 x` denotes
`x ^ (2^256 - 2^224 - 2^96 + 2^64 - 4) mod P` (so 0 at `x = 0`); a squaring doubles the
exponent, `square_n k` multiplies it by `2^k` and a multiplication adds the exponents. -/
theorem fe_invert2_exponent (x : List Nat) (hx : WordArray 32 8 x)
    (hlt : limbsVal 32 x < Params.P) :
    limbsVal 32 (Curve.fe_invert2 32 x) =
      limbsVal 32 x ^ (2 ^ 256 - 2 ^ 224 - 2 ^ 96 + 2 ^ 64 - 4) % Params.P ∧
    2 ^ 256 - 2 ^ 224 - 2 ^ 96 + 2 ^ 64 - 4 = Params.P - 3 ∧
    (limbsVal 32 x = 0 → limbsVal 32 (Curve.fe_invert2 32 x) = 0) ∧
    (∀ (a : Nat) (t : List Nat), IsPow32 x a t → IsPow32 x (2 * a) (FieldElement.square 32 t)) ∧
    (∀ (k a : Nat) (t : List Nat), IsPow32 x a t →
      IsPow32 x (2 ^ k * a) (FieldElement.square_n 32 t k)) ∧
    (∀ (a b : Nat) (s t : List Nat), IsPow32 x a s → IsPow32 x b t →
      IsPow32 x (a + b) (FieldElement.mul 32 s t)) := by
  have h := (fe_invert2_isPow x hx hlt).2
  have e : 2 ^ 256 - 2 ^ 224 - 2 ^ 96 + 2 ^ 64 - 4 = Params.P - 3 := by decide
  refine ⟨by rw [e]; exact h, e, ?_, fun _ _ ht => IsPow32.square ht,
    fun k _ _ ht => IsPow32.square_n k ht, fun _ _ _ _ hs ht => IsPow32.mul hs ht⟩
  intro h0
  have hpos : 0 < Params.P - 3 := by decide
  rw [h, h0]
  exact zero_pow_mod _ _ hpos

/-- Witness for C11 at `x = 0`. -/
theorem fe_invert2_exponent_witness :
    WordArray 32 8 (List.replicate 8 0) ∧ limbsVal 32 (List.replicate 8 0) < Params.P ∧
    limbsVal 32 (Curve.fe_invert2 32 (List.replicate 8 0)) = 0 :=
  ⟨by decide, by decide,
    (fe_invert2_exponent (List.replicate 8 0) (by decide) (by decide)).2.2.1 (by decide)⟩

/-- C12. The signed partial sums of `redc` re-express the input modulo `P`: for every
assignment of the sixteen 32-bit limbs, there are eight sums `S0..S7` and
`S0 + S1 * 2^32 + ... + S7 * 2^224 ≡ z (mod P)`. -/
theorem redc_sums_congr (z : List Nat) (hz : WordArray 32 16 z) :
    (redc_sums 32 z).length = 8 ∧
    sumsVal (redc_sums 32 z) ≡ (limbsVal 32 z : Int) [ZMOD (Params.P : Int)] := by
  obtain ⟨hlen, -, -, -, Q, hQ⟩ := redc_sums32_facts z hz
  refine ⟨hlen, ?_⟩
  rw [hQ]
  generalize sumsVal (redc_sums 32 z) = T
  unfold Int.ModEq
  rw [Int.add_mul_emod_self_left]

/-- Witness for C12 at the input whose only non-zero limb is `X08 = 1`, where `S2 = -1`. -/
theorem redc_sums_congr_witness :
    WordArray 32 16 [0, 0, 0, 0, 0, 0, 0, 0, 1, 0, 0, 0, 0, 0, 0, 0] ∧
    sumsVal (redc_sums 32 [0, 0, 0, 0, 0, 0, 0, 0, 1, 0, 0, 0, 0, 0, 0, 0]) ≡
      (limbsVal 32 [0, 0, 0, 0, 0, 0, 0, 0, 1, 0, 0, 0, 0, 0, 0, 0] : Int)
      [ZMOD (Params.P : Int)] :=
  ⟨by decide, (redc_sums_congr _ (by decide)).2⟩

set_option maxRecDepth 100000 in
/-- C13. The final carry of the accumulation is non-negative and small: with `r` the eight
accumulated limbs and `S = final_carry(0)`, the running sum `m_S` is in `0..13` (so the
assertion `m_S >= 0` holds and the cast to a word loses nothing) and
`r + S * 2^256 = S0 + S1 * 2^32 + ... + S7 * 2^224`. The carry 13 is reached at
`z = 2^512 - 1`; a partial sum and an intermediate carry can be negative (`X08 = 1`). -/
theorem redc_final_carry (z : List Nat) (hz : WordArray 32 16 z) :
    WordArray 32 8 (redc_accum 32 (redc_sums 32 z)).m_r ∧
    0 ≤ ((redc_accum 32 (redc_sums 32 z)).final_carry 32 0).1.m_S ∧
    ((redc_accum 32 (redc_sums 32 z)).final_carry 32 0).1.m_S ≤ 13 ∧
    (((redc_accum 32 (redc_sums 32 z)).final_carry 32 0).2 : Int) =
      ((redc_accum 32 (redc_sums 32 z)).final_carry 32 0).1.m_S ∧
    (limbsVal 32 (redc_accum 32 (redc_sums 32 z)).m_r : Int) +
      (((redc_accum 32 (redc_sums 32 z)).final_carry 32 0).2 : Int) * 2 ^ 256 =
      sumsVal (redc_sums 32 z) ∧
    ((redc_accum 32 (redc_sums 32 (List.replicate 16 0xFFFFFFFF))).final_carry 32 0).2 = 13 ∧
    (redc_sums 32 [0, 0, 0, 0, 0, 0, 0, 0, 1, 0, 0, 0, 0, 0, 0, 0]).getD 2 0 = -1 ∧
    (redc_accum 32
      ((redc_sums 32 [0, 0, 0, 0, 0, 0, 0, 0, 1, 0, 0, 0, 0, 0, 0, 0]).take 3)).m_S = -1 := by
  obtain ⟨hw, hS0, hS1, hT⟩ := redc_accum32_spec z hz
  generalize redc_accum 32 (redc_sums 32 z) = sum at hw hS0 hS1 hT ⊢
  obtain ⟨f1, f2⟩ := final_carry32_eq sum hS0 hS1
  rw [f1, f2]
  exact ⟨hw, hS0, hS1, rfl, hT, by decide, by decide, by decide⟩

/-- Witness for C13 at `z = 2^512 - 1`, where the carry is 13. -/
theorem redc_final_carry_witness :
    WordArray 32 16 (List.replicate 16 0xFFFFFFFF) ∧
    ((redc_accum 32 (redc_sums 32 (List.replicate 16 0xFFFFFFFF))).final_carry 32 0).1.m_S
      ≤ 13 :=
  ⟨by decide, (redc_final_carry _ (by decide)).2.2.1⟩

/-- C14. For every `i ≤ 2^32 - 2` (in particular every carry `0..13` of `redc`), no word
update of `sm2_mul_mod_256` wraps around, in the 32-bit and in the 64-bit branch, and the
returned words denote `P - i * (2^256 - P) = ((i + 1) * P) mod 2^256`; in particular
`sm2_mul_mod_256 0 = P`. -/
theorem sm2_mul_mod_256_no_wrap (i : Nat) (hi : i ≤ 2 ^ 32 - 2) :
    sm2_mul_mod_256_checked 32 i = some (sm2_mul_mod_256 32 i) ∧
    sm2_mul_mod_256_checked 64 i = some (sm2_mul_mod_256 64 i) ∧
    i * (2 ^ 256 - Params.P) ≤ Params.P ∧
    limbsVal 32 (sm2_mul_mod_256 32 i) = Params.P - i * (2 ^ 256 - Params.P) ∧
    limbsVal 64 (sm2_mul_mod_256 64 i) = Params.P - i * (2 ^ 256 - Params.P) ∧
    Params.P - i * (2 ^ 256 - Params.P) = (i + 1) * Params.P % 2 ^ 256 ∧
    sm2_mul_mod_256 32 0 = P 32 ∧ sm2_mul_mod_256 64 0 = P 64 := by
  obtain ⟨a1, a2, a3⟩ := mul_mod_256_arith _ i hi (limbsVal_sm2_mul_mod_256_32 i hi)
  obtain ⟨-, b2, -⟩ := mul_mod_256_arith _ i hi (limbsVal_sm2_mul_mod_256_64 i hi)
  exact ⟨sm2_mul_mod_256_checked_32 i hi, sm2_mul_mod_256_checked_64 i hi, a1, a2, b2, a3,
    by decide, by decide⟩

/-- Witness for C14 at `i = 2^32 - 2`, the largest multiplier without wrap-around. -/
theorem sm2_mul_mod_256_no_wrap_witness :
    4294967294 ≤ 2 ^ 32 - 2 ∧
    sm2_mul_mod_256_checked 32 4294967294 = some (sm2_mul_mod_256 32 4294967294) ∧
    sm2_mul_mod_256_checked 64 4294967294 = some (sm2_mul_mod_256 64 4294967294) :=
  ⟨by decide, (sm2_mul_mod_256_no_wrap 4294967294 (by decide)).1,
    (sm2_mul_mod_256_no_wrap 4294967294 (by decide)).2.1⟩

/-- C15. Word-width independence: for every integer `0 ≤ n < 2^512`, `redc` on 64-bit
words (eight in, four out) and `redc` on 32-bit words (sixteen in, eight out) return arrays
denoting the same integer, `n mod P`; likewise for any two well-formed inputs denoting the
same integer. -/
theorem redc_word_width_independent (n : Nat) (hn : n < 2 ^ (32 * 16)) :
    limbsVal 64 (redc 64 (toLimbs 64 8 n)) = limbsVal 32 (redc 32 (toLimbs 32 16 n)) ∧
    limbsVal 32 (redc 32 (toLimbs 32 16 n)) = n % Params.P ∧
    (∀ z64 z32 : List Nat, WordArray 64 8 z64 → WordArray 32 16 z32 →
      limbsVal 64 z64 = limbsVal 32 z32 →
      limbsVal 64 (redc 64 z64) = limbsVal 32 (redc 32 z32)) := by
  have h64 := (redc64_spec (toLimbs 64 8 n) (toLimbs_wordArray 64 8 n)).2
  have h32 := (redc32_spec (toLimbs 32 16 n) (toLimbs_wordArray 32 16 n)).2
  have e : 64 * 8 = 32 * 16 := by decide
  rw [limbsVal_toLimbs, e, Nat.mod_eq_of_lt hn] at h64
  rw [limbsVal_toLimbs, Nat.mod_eq_of_lt hn] at h32
  refine ⟨by rw [h64, h32], h32, ?_⟩
  intro z64 z32 hz64 hz32 hv
  rw [(redc64_spec z64 hz64).2, (redc32_spec z32 hz32).2, hv]

/-- Witness for C15 at `n = 2^512 - 1`. -/
theorem redc_word_width_independent_witness :
    limbsVal 32 (List.replicate 16 0xFFFFFFFF) < 2 ^ (32 * 16) ∧
    limbsVal 64 (redc 64 (toLimbs 64 8 (limbsVal 32 (List.replicate 16 0xFFFFFFFF)))) =
      limbsVal 32 (redc 32 (toLimbs 32 16 (limbsVal 32 (List.replicate 16 0xFFFFFFFF)))) :=
  ⟨limbsVal_lt_of_le 32 16 16 _ (by decide) (le_refl _),
    (redc_word_width_independent _
      (limbsVal_lt_of_le 32 16 16 _ (by decide) (le_refl _))).1⟩

/-- C16. No signed 64-bit overflow occurs in `redc`: for every assignment of the sixteen
32-bit limbs, each partial sum `S0..S7` and every running accumulator value (previous carry
plus `S_i`) is in magnitude below `2^37`, far inside the `int64_t` range, so the `int64_t`
computation equals the same computation over the unbounded integers. -/
theorem redc_no_overflow (z : List Nat) (hz : WordArray 32 16 z) :
    (∀ v ∈ redc_sums_exact 32 z, -2 ^ 37 < v ∧ v < 2 ^ 37) ∧
    (∀ t ∈ running_values 32 (SolinasAccum.init (List.replicate (N 32) 0))
      (redc_sums_exact 32 z), -2 ^ 37 < t ∧ t < 2 ^ 37) ∧
    (2 : Int) ^ 37 < 2 ^ 63 ∧
    redc_sums 32 z = redc_sums_exact 32 z ∧
    redc_accum 32 (redc_sums 32 z) = redc_accum_exact 32 (redc_sums_exact 32 z) ∧
    redc 32 z = redc_exact 32 z := by
  obtain ⟨hs, hb⟩ := redc_sums_exact32_facts z hz
  obtain ⟨r1, r2, r3, r4⟩ := running_values_spec 32 (redc_sums_exact 32 z)
    (SolinasAccum.init (List.replicate (N 32) 0)) (by decide) (by decide) hb
  have hacc : redc_accum 32 (redc_sums 32 z) = redc_accum_exact 32 (redc_sums_exact 32 z) := by
    rw [hs]; exact r2.symm
  refine ⟨?_, r1, by norm_num, hs, hacc, ?_⟩
  · intro v hv
    obtain ⟨b1, b2⟩ := hb v hv
    constructor <;> omega
  · have hfc : (redc_accum_exact 32 (redc_sums_exact 32 z)).final_carry_exact 32 0 =
        (redc_accum_exact 32 (redc_sums_exact 32 z)).final_carry 32 0 :=
      final_carry_exact_eq 32 _ r3 r4
    rw [redc_eq_phases, redc_exact_eq_phases, hacc, hfc]

/-- Witness for C16 at `z = 2^512 - 1`. -/
theorem redc_no_overflow_witness :
    WordArray 32 16 (List.replicate 16 0xFFFFFFFF) ∧
    redc 32 (List.replicate 16 0xFFFFFFFF) = redc_exact 32 (List.replicate 16 0xFFFFFFFF) :=
  ⟨by decide, (redc_no_overflow _ (by decide)).2.2.2.2.2⟩

/-- C17. `redc` leaves reduced values unchanged and is idempotent: for every `x` in
`[0, P)`, `redc` of `x` zero-extended is `x`; `redc` of `P` zero-extended is 0; and for
every double-width `z`, `redc (zero_extend (redc z)) = redc z`. -/
theorem redc_idempotent (z : List Nat) (hz : WordArray 32 16 z) :
    redc 32 (zero_extend 32 (redc 32 z)) = redc 32 z ∧
    (∀ x : List Nat, WordArray 32 8 x → limbsVal 32 x < Params.P →
      redc 32 (zero_extend 32 x) = x) ∧
    redc 32 (zero_extend 32 (P 32)) = List.replicate 8 0 := by
  obtain ⟨r1, r2⟩ := redc32_spec z hz
  have hlt : limbsVal 32 (redc 32 z) < Params.P := by
    rw [r2]; exact Nat.mod_lt _ (by decide)
  refine ⟨redc32_zero_extend _ r1 hlt, fun x hx hx2 => redc32_zero_extend x hx hx2, ?_⟩
  obtain ⟨p1, p2⟩ := redc32_spec (zero_extend 32 (P 32))
    (zero_extend32_wordArray _ (by decide))
  rw [limbsVal_zero_extend, limbsVal_P32, Nat.mod_self] at p2
  exact limbsVal_inj 32 _ _ (by rw [p1.1]; rfl) p1.2 (by decide) (by rw [p2]; decide)

/-- Witness for C17 at `z = 2^512 - 1`. -/
theorem redc_idempotent_witness :
    WordArray 32 16 (List.replicate 16 0xFFFFFFFF) ∧
    redc 32 (zero_extend 32 (redc 32 (List.replicate 16 0xFFFFFFFF))) =
      redc 32 (List.replicate 16 0xFFFFFFFF) :=
  ⟨by decide, (redc_idempotent _ (by decide)).1⟩

end Botan.PCurve.sm2p256v1
